import Mathlib

/-!
# ASM+ : directive expansion for a 512-byte boot sector

A shallow embedding of `src/ASM+.c`.

Conventions of the embedding.

* A C string is the list of the characters that precede its terminating NUL
  (`CStr`); the end of the list plays the role of the NUL.  A `Char` stands for
  one byte of the string.
* The input file is the ordered list of the buffers that the successive calls
  `fgets(buffer, sizeof(buffer), in)` return (one entry per call).
* The output file is the concatenation of the texts written to `out`.
* `print_count` only grows; it is a natural number here (the C `int` does not
  overflow below `2^31` PRINT directives).  `prev_print_id`, `bg_colour`,
  `fg_colour` and the result of `atoi` are integers; `atoi` yields the value
  of a 32-bit `int`.
-/

namespace AsmPlus

/-- The contents of a NUL-terminated C string. -/
abbrev CStr := List Char

/-- Size of the line buffers (`#define MAX_LINE 1024`). -/
def MAX_LINE : Nat := 1024

/-- Replacement text of `#define STOP`. -/
def STOP : CStr := "cli\nhlt".toList

/-- Replacement text of `#define STOP_LOOP`. -/
def STOP_LOOP : CStr := "cli\nhlt\njmp $".toList

/-- The C-locale `isspace`: space, `\t`, `\n`, `\v`, `\f`, `\r`. -/
def isspace (c : Char) : Bool :=
  c.toNat = 32 || (9 ≤ c.toNat && c.toNat ≤ 13)

/-- The C `isdigit`. -/
def isdigit (c : Char) : Bool :=
  48 ≤ c.toNat && c.toNat ≤ 57

/-- Second loop of `trim`: cut trailing whitespace. -/
def trimRight (str : CStr) : CStr :=
  (str.reverse.dropWhile isspace).reverse

/-- Function `trim`: the first loop removes leading whitespace one character at
a time, the second one overwrites trailing whitespace with NUL. -/
def trim (str : CStr) : CStr :=
  trimRight (str.dropWhile isspace)

/-- Function `is_brace_line`. -/
def is_brace_line (line : CStr) : Bool :=
  match line.dropWhile isspace with
  | c :: rest =>
    if c = '{' || c = '}' then (rest.dropWhile isspace).isEmpty else false
  | [] => false

/-- The copy loop of `extract_go_label_colon`: `room` is `max_len - 1 - i`.
Returns the characters stored in `label` and the position `p` reached. -/
def collectLabel : CStr → Nat → CStr × CStr
  | [], _ => ([], [])
  | c :: cs, 0 => ([], c :: cs)
  | c :: cs, room + 1 =>
    if c ≠ ':' && !isspace c then
      ((c :: (collectLabel cs room).1), (collectLabel cs room).2)
    else ([], c :: cs)

/-- Function `extract_go_label_colon`: the returned flag and the contents of
`label` (which is written only when the `GO` test passes). -/
def extract_go_label_colon (line : CStr) (max_len : Nat) : Bool × CStr :=
  let p := line.dropWhile isspace
  if p.take 2 ≠ "GO".toList then (false, [])
  else
    let p := (p.drop 2).dropWhile isspace
    let r := collectLabel p (max_len - 1)
    let p := r.2.dropWhile isspace
    (p.head? == some ':', r.1)

/-- The loop of `convert_escapes`; `out_i` is the output index reached. -/
def convertLoop (max_len : Nat) : CStr → Nat → CStr
  | [], _ => []
  | [c], out_i => if out_i + 1 < max_len then [c] else []
  | c :: d :: rest, out_i =>
    if out_i + 1 < max_len then
      if c = '\\' && d = 'n' then
        '\n' :: convertLoop max_len rest (out_i + 1)
      else c :: convertLoop max_len (d :: rest) (out_i + 1)
    else []

/-- Function `convert_escapes`: the contents of `output` on return. -/
def convert_escapes (input : CStr) (max_len : Nat) : CStr :=
  convertLoop max_len input 0

/-- The digit loop of the library conversion: the value of the leading run of
decimal digits, added to `acc`. -/
def atoiDigits : CStr → Int → Int
  | [], acc => acc
  | c :: cs, acc => if isdigit c then atoiDigits cs (acc * 10 + (c.toNat - 48 : Nat)) else acc

/-- The number a string denotes for the library conversions: skip whitespace,
an optional sign, then decimal digits; `0` when no digit is found. -/
def parseDecimal (s : CStr) : Int :=
  match s.dropWhile isspace with
  | [] => 0
  | c :: cs =>
    if c = '-' then - atoiDigits cs 0
    else if c = '+' then atoiDigits cs 0
    else atoiDigits (c :: cs) 0

/-- The library function `strtol(s, NULL, 10)` with a 64-bit `long`: the number
denoted, replaced by `LONG_MIN` or `LONG_MAX` when it is outside the range of
`long`. -/
def strtol (s : CStr) : Int :=
  if parseDecimal s < -(2 ^ 63) then -(2 ^ 63)
  else if 2 ^ 63 - 1 < parseDecimal s then 2 ^ 63 - 1
  else parseDecimal s

/-- Conversion of a `long` to the 32-bit `int`: the low 32 bits, read as a
signed value. -/
def longToInt (v : Int) : Int := (v + 2 ^ 31) % 2 ^ 32 - 2 ^ 31

/-- The library function `atoi`, which the C library defines as
`(int) strtol(s, NULL, 10)`.  When the number denoted fits an `int` this is
that number, as the C standard prescribes; a longer numeral is cut to the
32-bit `int val` it is stored in (`4294967299` gives `3`). -/
def atoi (s : CStr) : Int := longToInt (strtol s)

/-- Offset returned by `strchr(s, c)`, when the character is found. -/
def strchr : CStr → Char → Option Nat
  | [], _ => none
  | x :: xs, c => if x = c then some 0 else (strchr xs c).map (· + 1)

/-- Offset returned by `strrchr(s, c)`, when the character is found. -/
def strrchr : CStr → Char → Option Nat
  | [], _ => none
  | x :: xs, c =>
    match strrchr xs c with
    | some i => some (i + 1)
    | none => if x = c then some 0 else none

/-- Conversion `%d` of a non-negative value. -/
def fmt_d (n : Nat) : CStr := Nat.toDigits 10 n

/-- Conversion `%02X` of a non-negative value: upper-case hexadecimal, padded
with zeros to two digits. -/
def fmt_02X (n : Nat) : CStr :=
  let ds := (Nat.toDigits 16 n).map Char.toUpper
  List.replicate (2 - ds.length) '0' ++ ds

/-- Running state of the expansion loop of `main`. -/
structure PrintState where
  print_count : Nat
  prev_print_id : Int
  deriving DecidableEq, Repr

/-- The `while (*pos)` loop that writes the operands of `message_<id> db`.
Every iteration that does not `break` moves `pos` past one newline, so
`fuel = strlen(pos)` iterations are always enough. -/
def emitSegments : Nat → Bool → CStr → CStr
  | 0, _, _ => []
  | fuel + 1, first, pos =>
    if pos.isEmpty then []
    else
      (if first then [] else ",10,".toList) ++ "\"".toList ++
        pos.takeWhile (fun c => c ≠ '\n') ++ "\"".toList ++
        match pos.dropWhile (fun c => c ≠ '\n') with
        | [] => []
        | _ :: pos1 => emitSegments fuel false pos1

/-- The chaining jump written before a print block when `prev_print_id >= 0`. -/
def chainJump (prev_print_id : Int) (id : Nat) : CStr :=
  if 0 ≤ prev_print_id then "jmp print_".toList ++ fmt_d id ++ "\n\n".toList else []

/-- The label line of print block `id`. -/
def printLabel (id : Nat) : CStr :=
  "print_".toList ++ fmt_d id ++ ":\n".toList

/-- The print routine of block `id` (the long `fprintf` of the PRINT branch). -/
def printRoutine (id : Nat) : CStr :=
  "cli\nxor ax, ax\nmov ds, ax\nmov si, message_".toList ++ fmt_d id ++
  "\nprint_loop_".toList ++ fmt_d id ++
  ":\nlodsb\nor al, al\njz print_done_".toList ++ fmt_d id ++
  "\ncmp al, 10\njne print_char_".toList ++ fmt_d id ++
  "\nmov al, 13\nmov ah, 0x0E\nint 0x10\nmov al, 10\nmov ah, 0x0E\nint 0x10\njmp print_loop_".toList
    ++ fmt_d id ++
  "\nprint_char_".toList ++ fmt_d id ++
  ":\nmov ah, 0x0E\nint 0x10\njmp print_loop_".toList ++ fmt_d id ++
  "\nprint_done_".toList ++ fmt_d id ++ ":\nsti\n".toList

/-- The data declaration of block `id` for the converted text `conv_text`. -/
def messageDecl (id : Nat) (conv_text : CStr) : CStr :=
  "message_".toList ++ fmt_d id ++ " db ".toList ++
    emitSegments conv_text.length true conv_text ++ ",0\n\n".toList

/-- The message of a PRINT line: the text strictly between the first and the
last double quote, when `start && end && end > start`. -/
def printMessage (line : CStr) : Option CStr :=
  match strchr line '"', strrchr line '"' with
  | some s, some e => if s < e then some ((line.take e).drop (s + 1)) else none
  | _, _ => none

/-- Everything the PRINT branch writes for the message `msg`, and the new state. -/
def expandPrint (st : PrintState) (msg : CStr) : CStr × PrintState :=
  let conv_text := convert_escapes msg (MAX_LINE * 2)
  let id := st.print_count
  (chainJump st.prev_print_id id ++ printLabel id ++ printRoutine id ++ messageDecl id conv_text,
   { print_count := st.print_count + 1, prev_print_id := id })

/-- One iteration of the expansion loop of `main`, on the list node `raw`:
the text written to `out` and the state after it. -/
def expandLine (st : PrintState) (raw : CStr) : CStr × PrintState :=
  let line := trim raw
  if line = "STOP".toList then (STOP ++ "\n".toList, st)
  else if line = "STOP_LOOP".toList then (STOP_LOOP ++ "\n".toList, st)
  else if line.take 2 = "GO".toList then
    let r := extract_go_label_colon line 128
    if r.1 then ("jmp ".toList ++ r.2 ++ "\n".toList, st)
    else (line ++ "\n".toList, st)
  else if line.take 5 = "PRINT".toList then
    match printMessage line with
    | some msg => expandPrint st msg
    | none => (line ++ "\n".toList, st)
  else (line ++ "\n".toList, st)

/-- The expansion loop of `main` from state `st`: the texts written, one entry
per list node, in order. -/
def expandFrom : PrintState → List CStr → List CStr
  | _, [] => []
  | st, raw :: rest => (expandLine st raw).1 :: expandFrom (expandLine st raw).2 rest

/-- Initial state: `print_count = 0, prev_print_id = -1`. -/
def initPrint : PrintState := { print_count := 0, prev_print_id := -1 }

/-- The expansion loop of `main` over the whole list. -/
def expand (lines : List CStr) : List CStr := expandFrom initPrint lines

/-- State of the first loop of `main`: the colours and the linked list built by
`add_line` (head first). -/
structure LoadState where
  bg_colour : Int
  fg_colour : Int
  lines : List CStr
  deriving DecidableEq, Repr

/-- Initial state: `bg_colour = 0, fg_colour = 7`, empty list. -/
def initLoad : LoadState := { bg_colour := 0, fg_colour := 7, lines := [] }

/-- The working copy `line` of the first loop: `strncpy` into a `MAX_LINE`
buffer, forced terminator, then `trim`. -/
def loaderLine (buffer : CStr) : CStr := trim (buffer.take (MAX_LINE - 1))

/-- The argument of a colour directive: `atoi` of the text after the nine
characters of the keyword and the whitespace that follows. -/
def colourValue (line : CStr) : Int := atoi ((line.drop 9).dropWhile isspace)

/-- One iteration of the first loop of `main` on the buffer read by `fgets`. -/
def loadLine (st : LoadState) (buffer : CStr) : LoadState :=
  let line := loaderLine buffer
  if is_brace_line line then st
  else if line.take 9 = "colour_bg".toList then
    let val := colourValue line
    if 0 ≤ val ∧ val ≤ 15 then { st with bg_colour := val } else st
  else if line.take 9 = "colour_fg".toList then
    let val := colourValue line
    if 0 ≤ val ∧ val ≤ 15 then { st with fg_colour := val } else st
  else { st with lines := st.lines ++ [buffer] }

/-- The first loop of `main` over all the buffers read. -/
def loader (input : List CStr) : LoadState := input.foldl loadLine initLoad

/-- The attribute: `(bg_colour << 4) | (fg_colour & 0x0F)`. -/
def attrByte (bg_colour fg_colour : Int) : Int :=
  Int.lor (bg_colour <<< (4 : Int)) (Int.land fg_colour 0x0F)

/-- The header written first. -/
def header : CStr := "bits 16\norg 0x7C00\n\n".toList

/-- The screen-clear preamble; `%02X` reads the `int` as an `unsigned`. -/
def preamble (attr : Int) : CStr :=
  "cli\nmov ax, 0xB800\nmov es, ax\nxor di, di\nmov cx, 2000\nmov al, ' '\nmov ah, 0x".toList ++
  fmt_02X (attr % 2 ^ 32).toNat ++
  "\nclear_loop:\nmov [es:di], al\ninc di\nmov [es:di], ah\ninc di\nloop clear_loop\n\nmov di, ".toList
    ++ fmt_d (24 * 80 * 2 + 79 * 2) ++ "\n".toList

/-- The footer written last. -/
def footer : CStr := "\ncli\nhlt\njmp $\ntimes 510-($-$$) db 0\ndb 0x55\ndb 0xAA\n".toList

/-- The text of the output file for the buffers `input`. -/
def generate (input : List CStr) : CStr :=
  let st := loader input
  header ++ preamble (attrByte st.bg_colour st.fg_colour) ++ (expand st.lines).flatten ++ footer

/-! ## Specification-side definitions -/

/-- A well-formed PRINT directive: the trimmed line starts with `PRINT` and
holds two distinct double-quote characters. -/
def isPrintDirective (raw : CStr) : Bool :=
  decide ((trim raw).take 5 = "PRINT".toList) && decide (2 ≤ (trim raw).count '"')

/-- Number of well-formed PRINT directives among the first `i` nodes. -/
def printsBefore (lines : List CStr) (i : Nat) : Nat :=
  (lines.take i).countP isPrintDirective

/-- The state of the expansion loop once `k` print blocks have been written. -/
def stateAt (k : Nat) : PrintState := { print_count := k, prev_print_id := (k : Int) - 1 }

/-- Value of a decimal numeral read back from its characters. -/
def decimalValue (ds : CStr) : Nat := ds.foldl (fun a c => 10 * a + (c.toNat - 48)) 0

/-- A `GO` line whose label (the characters after `GO` and optional whitespace,
up to the first whitespace or colon) is not followed, after optional
whitespace, by a colon. -/
def goLacksColon (line : CStr) : Bool :=
  (((((line.drop 2).dropWhile isspace).dropWhile
    (fun c => c ≠ ':' && !isspace c)).dropWhile isspace).head? != some ':')

/-- What a successful `fgets(buffer, MAX_LINE, in)` leaves in `buffer`: at
least one and at most `MAX_LINE - 1` characters, with no newline before the
last one. -/
def fgetsResult (buffer : CStr) : Bool :=
  decide (0 < buffer.length) && decide (buffer.length < MAX_LINE) &&
    buffer.dropLast.all (fun c => c ≠ '\n')

/-- The in-range values of the directives `kw` of the input, in source order:
the lines whose trimmed text starts with the nine characters `kw`, their parsed
values, those of them within `[0,15]`. -/
def inRangeValues (kw : CStr) (input : List CStr) : List Int :=
  ((input.filter (fun l => (trim l).take 9 = kw)).map (fun l => colourValue (trim l))).filter
    (fun v => 0 ≤ v ∧ v ≤ 15)

/-- The value of the last in-range directive `kw` of the input, `dflt` when
there is none. -/
def lastInRange (kw : CStr) (dflt : Int) (input : List CStr) : Int :=
  (inRangeValues kw input).getLast?.getD dflt

/-- A cosmetic grouping line: its characters other than whitespace are exactly
one `{` or one `}`. -/
def braceOnly (l : CStr) : Bool :=
  match l.filter (fun c => !isspace c) with
  | [c] => c = '{' || c = '}'
  | _ => false

/-- A colour directive: the trimmed text starts with `colour_bg` or `colour_fg`. -/
def isColourDirective (l : CStr) : Bool :=
  decide ((trim l).take 9 = "colour_bg".toList) || decide ((trim l).take 9 = "colour_fg".toList)

/-- A blank line: nothing but whitespace. -/
def isBlank (l : CStr) : Bool := l.all isspace

/-- The lines of a text: the pieces between consecutive newlines. -/
def textLines : CStr → List CStr
  | [] => [[]]
  | c :: cs => if c = '\n' then [] :: textLines cs else (textLines cs).modifyHead (c :: ·)

/-- No line of the text `t` is a cosmetic grouping line.  With `inLine` set,
`t` continues a line that already holds a character other than whitespace and
braces, so the first piece of `t` is not looked at. -/
def NoBraceLines (inLine : Bool) (t : CStr) : Prop :=
  ∀ l ∈ (if inLine then (textLines t).tail else textLines t), braceOnly l = false

/-- A character that is neither whitespace nor a brace. -/
def plainChar (c : Char) : Bool := !isspace c && c != '{' && c != '}'

/-- Reads a fixed text from the state `inLine`: `none` when a line of it starts
with whitespace or a brace (not judged), otherwise the state at its end. -/
def scanText : Bool → CStr → Option Bool
  | s, [] => some s
  | s, c :: cs =>
    if c = '\n' then scanText false cs
    else if s || plainChar c then scanText true cs
    else none

/-- The example program of the specification, one buffer per source line. -/
def specExample : List CStr :=
  ["colour_bg 1\n".toList, "colour_fg 14\n".toList, "PRINT \"Hi\\nThere\"\n".toList,
    "STOP\n".toList]

/-- Escape conversion as the specification words it, without any buffer: read
left to right, a backslash immediately followed by `n` becomes one byte 10,
every other character is copied. -/
def unescape : CStr → CStr
  | [] => []
  | [c] => [c]
  | c :: d :: rest =>
    if c = '\\' && d = 'n' then '\n' :: unescape rest else c :: unescape (d :: rest)

/-- Number of pairs replaced by `unescape`. -/
def escapeCount : CStr → Nat
  | [] => 0
  | [_] => 0
  | c :: d :: rest =>
    if c = '\\' && d = 'n' then escapeCount rest + 1 else escapeCount (d :: rest)

/-! ## Auxiliary facts -/

set_option maxRecDepth 100000

theorem str_STOP : "STOP".toList = ['S', 'T', 'O', 'P'] := by decide

theorem str_STOP_LOOP : "STOP_LOOP".toList = ['S', 'T', 'O', 'P', '_', 'L', 'O', 'O', 'P'] := by
  decide

theorem str_GO : "GO".toList = ['G', 'O'] := by decide

theorem str_PRINT : "PRINT".toList = ['P', 'R', 'I', 'N', 'T'] := by decide

theorem strchr_eq_none (l : CStr) (q : Char) : strchr l q = none ↔ l.count q = 0 := by
  induction l with
  | nil => simp [strchr]
  | cons x xs ih =>
    by_cases hx : x = q
    · simp [strchr, hx]
    · simp [strchr, hx, ih, List.count_cons]

theorem strrchr_eq_none (l : CStr) (q : Char) : strrchr l q = none ↔ l.count q = 0 := by
  induction l with
  | nil => simp [strrchr]
  | cons x xs ih =>
    by_cases hx : x = q
    · simp only [strrchr, hx]
      cases h : strrchr xs q <;> simp
    · simp only [strrchr, hx]
      cases h : strrchr xs q
      · have := ih.mp h
        simp [List.count_cons, hx, this]
      · have : ¬ (xs.count q = 0) := fun h0 => by simp [ih.mpr h0] at h
        simp [List.count_cons, hx, this]

/-- The quotes of a line are found apart exactly when it holds two of them. -/
theorem quotes_apart (l : CStr) (q : Char) :
    (∃ s e, strchr l q = some s ∧ strrchr l q = some e ∧ s < e) ↔ 2 ≤ l.count q := by
  induction l with
  | nil => simp [strchr]
  | cons x xs ih =>
    by_cases hx : x = q
    · subst hx
      cases h : strrchr xs x with
      | none =>
        have := (strrchr_eq_none xs x).mp h
        simp [strchr, strrchr, h, this]
      | some i =>
        have : ¬ (xs.count x = 0) := fun h0 => by simp [(strrchr_eq_none xs x).mpr h0] at h
        have hc : (x :: xs).count x = xs.count x + 1 := by simp [List.count_cons]
        constructor
        · intro _
          omega
        · intro _
          exact ⟨0, i + 1, by simp [strchr], by simp [strrchr, h], by omega⟩
    · have hc : (x :: xs).count q = xs.count q := by simp [List.count_cons, hx]
      rw [hc, ← ih]
      constructor
      · rintro ⟨s, e, hs, he, hlt⟩
        simp only [strchr, hx, if_false] at hs
        simp only [strrchr] at he
        cases h1 : strchr xs q with
        | none => simp [h1] at hs
        | some s1 =>
          cases h2 : strrchr xs q with
          | none => simp [h2, hx] at he
          | some e1 =>
            simp [h1] at hs
            simp [h2] at he
            exact ⟨s1, e1, rfl, rfl, by omega⟩
      · rintro ⟨s, e, hs, he, hlt⟩
        exact ⟨s + 1, e + 1, by simp [strchr, hx, hs], by simp [strrchr, he], by omega⟩

theorem printMessage_isSome (l : CStr) : (printMessage l).isSome = decide (2 ≤ l.count '"') := by
  have h := quotes_apart l '"'
  unfold printMessage
  by_cases hc : 2 ≤ l.count '"'
  · obtain ⟨s, e, hs, he, hlt⟩ := h.mpr hc
    simp [hs, he, hlt, hc]
  · simp only [hc, decide_False]
    cases hs : strchr l '"' with
    | none => simp
    | some s =>
      cases he : strrchr l '"' with
      | none => simp
      | some e =>
        by_cases hlt : s < e
        · exact absurd (h.mp ⟨s, e, hs, he, hlt⟩) hc
        · simp [hlt]

theorem take_eq_append {n : Nat} {l p : CStr} (h : l.take n = p) : l = p ++ l.drop n := by
  rw [← h, List.take_append_drop]

theorem expandLine_print (st : PrintState) (raw : CStr) (h : isPrintDirective raw = true) :
    ∃ msg, printMessage (trim raw) = some msg ∧ expandLine st raw = expandPrint st msg := by
  simp only [isPrintDirective, Bool.and_eq_true, decide_eq_true_eq] at h
  obtain ⟨hp, hq⟩ := h
  have hs : (printMessage (trim raw)).isSome = true := by
    rw [printMessage_isSome]; simpa using hq
  obtain ⟨msg, hmsg⟩ := Option.isSome_iff_exists.mp hs
  refine ⟨msg, hmsg, ?_⟩
  have hl := take_eq_append hp
  rw [str_PRINT] at hl
  unfold expandLine
  simp only [hmsg]
  rw [hl]
  simp [str_STOP, str_STOP_LOOP, str_GO, str_PRINT]

theorem expandLine_other (st : PrintState) (raw : CStr) (h : isPrintDirective raw = false) :
    expandLine st raw = ((expandLine initPrint raw).1, st) := by
  have hn : (trim raw).take 5 = "PRINT".toList → printMessage (trim raw) = none := by
    intro hp
    have : ¬ (2 ≤ (trim raw).count '"') := by
      intro hq
      simp [isPrintDirective, hp, hq] at h
    have hs := printMessage_isSome (trim raw)
    simp only [this, decide_False] at hs
    cases hm : printMessage (trim raw) with
    | none => rfl
    | some m => simp [hm] at hs
  unfold expandLine
  simp only
  split_ifs with h1 h2 h3 h4 h5
  · rfl
  · rfl
  · rfl
  · rfl
  · simp [hn h5]
  · rfl

theorem initPrint_eq : initPrint = stateAt 0 := by
  simp [initPrint, stateAt]

theorem expandPrint_state (k : Nat) (msg : CStr) : (expandPrint (stateAt k) msg).2 = stateAt (k + 1) := by
  simp [expandPrint, stateAt]

theorem chainJump_stateAt (k : Nat) :
    chainJump (stateAt k).prev_print_id k =
      if k = 0 then [] else "jmp print_".toList ++ fmt_d k ++ "\n\n".toList := by
  unfold chainJump stateAt
  by_cases hk : k = 0
  · subst hk; simp
  · have : (0 : Int) ≤ (k : Int) - 1 := by omega
    simp [hk, this]

theorem expandLine_state (k : Nat) (raw : CStr) :
    (expandLine (stateAt k) raw).2 = stateAt (k + (if isPrintDirective raw then 1 else 0)) := by
  cases h : isPrintDirective raw
  · rw [expandLine_other _ _ h]; simp
  · obtain ⟨msg, _, he⟩ := expandLine_print (stateAt k) raw h
    rw [he, expandPrint_state]; simp

theorem printsBefore_zero (lines : List CStr) : printsBefore lines 0 = 0 := by
  simp [printsBefore]

theorem printsBefore_cons (raw : CStr) (rest : List CStr) (i : Nat) :
    printsBefore (raw :: rest) (i + 1) =
      (if isPrintDirective raw then 1 else 0) + printsBefore rest i := by
  simp only [printsBefore, List.take_succ_cons, List.countP_cons]
  omega

theorem expandFrom_length (st : PrintState) (lines : List CStr) :
    (expandFrom st lines).length = lines.length := by
  induction lines generalizing st with
  | nil => rfl
  | cons raw rest ih => simp [expandFrom, ih]

/-- What the loop writes for node `i` depends on the earlier nodes only through
the number of print blocks already written. -/
theorem expandFrom_getElem (k : Nat) (lines : List CStr) (i : Nat) :
    (expandFrom (stateAt k) lines)[i]? =
      lines[i]?.map (fun raw => (expandLine (stateAt (k + printsBefore lines i)) raw).1) := by
  induction lines generalizing k i with
  | nil => simp [expandFrom]
  | cons raw rest ih =>
    cases i with
    | zero => simp [expandFrom, printsBefore_zero]
    | succ j =>
      simp only [expandFrom, List.getElem?_cons_succ]
      rw [expandLine_state, ih, printsBefore_cons, Nat.add_assoc]

theorem printsBefore_mono (lines : List CStr) {i j : Nat} (h : i ≤ j) :
    printsBefore lines i ≤ printsBefore lines j := by
  unfold printsBefore
  apply List.Sublist.countP_le
  exact (List.take_sublist_take_left lines h)

theorem printsBefore_succ (lines : List CStr) (i : Nat) (raw : CStr) (h : lines[i]? = some raw) :
    printsBefore lines (i + 1) = printsBefore lines i + (if isPrintDirective raw then 1 else 0) := by
  unfold printsBefore
  rw [List.take_succ, h]
  simp [List.countP_append, List.countP_cons]

theorem printsBefore_le_total (lines : List CStr) (i : Nat) :
    printsBefore lines i ≤ lines.countP isPrintDirective := by
  unfold printsBefore
  exact List.Sublist.countP_le _ (List.take_sublist i lines)

theorem printsBefore_lt_total (lines : List CStr) (i : Nat) (raw : CStr) (h : lines[i]? = some raw)
    (hp : isPrintDirective raw = true) : printsBefore lines i < lines.countP isPrintDirective := by
  have h1 := printsBefore_succ lines i raw h
  have h2 := printsBefore_le_total lines (i + 1)
  simp only [hp, if_true] at h1
  omega

theorem exists_print_position (lines : List CStr) (k : Nat)
    (hk : k < lines.countP isPrintDirective) :
    ∃ i raw, lines[i]? = some raw ∧ isPrintDirective raw = true ∧ printsBefore lines i = k := by
  induction lines generalizing k with
  | nil => simp at hk
  | cons raw rest ih =>
    cases hp : isPrintDirective raw
    · have hk2 : k < rest.countP isPrintDirective := by
        simpa [List.countP_cons, hp] using hk
      obtain ⟨i, r, hi, hr, hc⟩ := ih k hk2
      exact ⟨i + 1, r, by simpa using hi, hr, by rw [printsBefore_cons, hp]; simpa using hc⟩
    · cases k with
      | zero => exact ⟨0, raw, by simp, hp, printsBefore_zero _⟩
      | succ k1 =>
        have hk2 : k1 < rest.countP isPrintDirective := by
          simp [List.countP_cons, hp] at hk
          omega
        obtain ⟨i, r, hi, hr, hc⟩ := ih k1 hk2
        refine ⟨i + 1, r, by simpa using hi, hr, ?_⟩
        rw [printsBefore_cons, hp, hc]
        simp
        omega

theorem print_position_lt (lines : List CStr) (i j : Nat) (raw : CStr) (h : lines[i]? = some raw)
    (hp : isPrintDirective raw = true) (hij : i < j) :
    printsBefore lines i < printsBefore lines j := by
  have h1 := printsBefore_succ lines i raw h
  have h2 := printsBefore_mono lines (show i + 1 ≤ j by omega)
  simp only [hp, if_true] at h1
  omega

theorem digitChar_value (m : Nat) (h : m < 10) : (Nat.digitChar m).toNat - 48 = m := by
  interval_cases m <;> rfl

theorem toDigitsCore_value (fuel : Nat) : ∀ (n : Nat) (ds : CStr), n < fuel →
    (Nat.toDigitsCore 10 fuel n ds).foldl (fun a c => 10 * a + (c.toNat - 48)) 0 =
      ds.foldl (fun a c => 10 * a + (c.toNat - 48)) n := by
  induction fuel with
  | zero => intro n ds h; omega
  | succ f ih =>
    intro n ds h
    simp only [Nat.toDigitsCore]
    have hd := digitChar_value (n % 10) (Nat.mod_lt _ (by omega))
    split_ifs with h0
    · simp only [List.foldl_cons, hd]
      congr 1
      omega
    · rw [ih (n / 10) _ (by omega)]
      simp only [List.foldl_cons, hd]
      congr 1
      omega

theorem decimalValue_fmt_d (n : Nat) : decimalValue (fmt_d n) = n := by
  unfold decimalValue fmt_d Nat.toDigits
  rw [toDigitsCore_value (n + 1) n [] (by omega)]
  rfl

theorem fmt_d_injective (a b : Nat) (h : fmt_d a = fmt_d b) : a = b := by
  have := congrArg decimalValue h
  simpa [decimalValue_fmt_d] using this

theorem printMessage_none (raw : CStr) (h : isPrintDirective raw = false)
    (hp : (trim raw).take 5 = "PRINT".toList) : printMessage (trim raw) = none := by
  have : ¬ (2 ≤ (trim raw).count '"') := by
    intro hq
    simp [isPrintDirective, hp, hq] at h
  have hs := printMessage_isSome (trim raw)
  simp only [this, decide_False] at hs
  cases hm : printMessage (trim raw) with
  | none => rfl
  | some m => simp [hm] at hs

/-- What a node that is not a well-formed PRINT directive expands to. -/
theorem expandLine_other_forms (raw : CStr) (h : isPrintDirective raw = false) :
    (expandLine initPrint raw).1 = "cli\nhlt\n".toList ∨
    (expandLine initPrint raw).1 = "cli\nhlt\njmp $\n".toList ∨
    (expandLine initPrint raw).1 =
      "jmp ".toList ++ (extract_go_label_colon (trim raw) 128).2 ++ "\n".toList ∨
    (expandLine initPrint raw).1 = trim raw ++ "\n".toList := by
  unfold expandLine
  simp only
  split_ifs with h1 h2 h3 h4 h5
  · left; rfl
  · right; left; rfl
  · right; right; left; rfl
  · right; right; right; rfl
  · right; right; right; simp [printMessage_none raw h h5]
  · right; right; right; rfl

/-- C1: the `k`-th well-formed PRINT directive (counting from 0, in source
order, whatever other lines surround it) is expanded to the block with id `k`:
the label `print_k:`, its routine and its data declaration, preceded by the
chaining jump `jmp print_k` (and the empty line that ends it) exactly when
`k ≥ 1`.  With `N` such directives
every id `0..N-1` is used at exactly one position, ids increase with the
position, distinct ids give distinct numerals, and a node that is not a
well-formed PRINT directive writes only its own halt, `jmp <label>` or verbatim
text, independent of the print state (so nothing is chained before block 0 or
after block `N-1`). -/
theorem print_blocks_numbered_and_chained (lines : List CStr) :
    (expand lines).length = lines.length ∧
    (∀ (i : Nat) (raw : CStr), lines[i]? = some raw → isPrintDirective raw = true →
      printsBefore lines i < lines.countP isPrintDirective ∧
      ∃ msg, printMessage (trim raw) = some msg ∧
        (expand lines)[i]? = some (
          (if printsBefore lines i = 0 then []
            else "jmp print_".toList ++ fmt_d (printsBefore lines i) ++ "\n\n".toList) ++
          ("print_".toList ++ fmt_d (printsBefore lines i) ++ ":\n".toList) ++
          printRoutine (printsBefore lines i) ++
          messageDecl (printsBefore lines i) (convert_escapes msg (MAX_LINE * 2)))) ∧
    (∀ (i : Nat) (raw : CStr), lines[i]? = some raw → isPrintDirective raw = false →
      (expand lines)[i]? = some (expandLine initPrint raw).1 ∧
      ((expandLine initPrint raw).1 = "cli\nhlt\n".toList ∨
       (expandLine initPrint raw).1 = "cli\nhlt\njmp $\n".toList ∨
       (expandLine initPrint raw).1 =
         "jmp ".toList ++ (extract_go_label_colon (trim raw) 128).2 ++ "\n".toList ∨
       (expandLine initPrint raw).1 = trim raw ++ "\n".toList)) ∧
    (∀ k, k < lines.countP isPrintDirective →
      ∃! i : Nat, ∃ raw, lines[i]? = some raw ∧ isPrintDirective raw = true ∧
        printsBefore lines i = k) ∧
    (∀ (i j : Nat) (raw : CStr), lines[i]? = some raw → isPrintDirective raw = true → i < j →
      printsBefore lines i < printsBefore lines j) ∧
    (∀ a b, fmt_d a = fmt_d b → a = b) := by
  have hget : ∀ (i : Nat) (raw : CStr), lines[i]? = some raw →
      (expand lines)[i]? = some (expandLine (stateAt (printsBefore lines i)) raw).1 := by
    intro i raw h
    unfold expand
    rw [initPrint_eq, expandFrom_getElem, h]
    simp
  refine ⟨expandFrom_length _ _, ?_, ?_, ?_, ?_, fmt_d_injective⟩
  · intro i raw h hp
    refine ⟨printsBefore_lt_total lines i raw h hp, ?_⟩
    obtain ⟨msg, hm, he⟩ := expandLine_print (stateAt (printsBefore lines i)) raw hp
    refine ⟨msg, hm, ?_⟩
    rw [hget i raw h, he]
    have hc : (stateAt (printsBefore lines i)).print_count = printsBefore lines i := rfl
    simp only [expandPrint, hc]
    rw [chainJump_stateAt]
    simp [printLabel]
  · intro i raw h hp
    refine ⟨?_, expandLine_other_forms raw hp⟩
    rw [hget i raw h, expandLine_other _ _ hp]
  · intro k hk
    obtain ⟨i, raw, hi, hr, hc⟩ := exists_print_position lines k hk
    refine ⟨i, ⟨raw, hi, hr, hc⟩, ?_⟩
    rintro j ⟨r2, hj, hr2, hc2⟩
    rcases Nat.lt_trichotomy j i with hlt | heq | hgt
    · have := print_position_lt lines j i r2 hj hr2 hlt
      omega
    · exact heq
    · have := print_position_lt lines i j raw hi hr hgt
      omega
  · intro i j raw h hp hij
    exact print_position_lt lines i j raw h hp hij

/-- C1 at the program `PRINT "a"`, `STOP`, `PRINT "b"`: the third node is the
second print block. -/
theorem print_blocks_numbered_and_chained_witness :
    (["PRINT \"a\"\n".toList, "STOP\n".toList, "PRINT \"b\"\n".toList] : List CStr)[2]? =
      some "PRINT \"b\"\n".toList ∧
    isPrintDirective "PRINT \"b\"\n".toList = true ∧
    (printsBefore ["PRINT \"a\"\n".toList, "STOP\n".toList, "PRINT \"b\"\n".toList] 2 <
        (["PRINT \"a\"\n".toList, "STOP\n".toList, "PRINT \"b\"\n".toList] : List CStr).countP
          isPrintDirective ∧
      ∃ msg, printMessage (trim "PRINT \"b\"\n".toList) = some msg ∧
        (expand ["PRINT \"a\"\n".toList, "STOP\n".toList, "PRINT \"b\"\n".toList])[2]? = some (
          (if printsBefore ["PRINT \"a\"\n".toList, "STOP\n".toList, "PRINT \"b\"\n".toList] 2 = 0
            then []
            else "jmp print_".toList ++
              fmt_d (printsBefore ["PRINT \"a\"\n".toList, "STOP\n".toList,
                "PRINT \"b\"\n".toList] 2) ++ "\n\n".toList) ++
          ("print_".toList ++
            fmt_d (printsBefore ["PRINT \"a\"\n".toList, "STOP\n".toList,
              "PRINT \"b\"\n".toList] 2) ++ ":\n".toList) ++
          printRoutine (printsBefore ["PRINT \"a\"\n".toList, "STOP\n".toList,
            "PRINT \"b\"\n".toList] 2) ++
          messageDecl (printsBefore ["PRINT \"a\"\n".toList, "STOP\n".toList,
            "PRINT \"b\"\n".toList] 2) (convert_escapes msg (MAX_LINE * 2)))) :=
  ⟨by decide, by decide,
    (print_blocks_numbered_and_chained
      ["PRINT \"a\"\n".toList, "STOP\n".toList, "PRINT \"b\"\n".toList]).2.1 2
      "PRINT \"b\"\n".toList (by decide) (by decide)⟩

theorem dropWhile_tail_length (p : Char → Bool) (pos : CStr) (x : Char) (pos1 : CStr)
    (h : pos.dropWhile p = x :: pos1) : pos1.length < pos.length := by
  have := (List.dropWhile_sublist p (l := pos)).length_le
  rw [h] at this
  simp only [List.length_cons] at this
  omega

/-- The segment loop never runs out of fuel: any two bounds that cover the
length of the text left give the same output. -/
theorem emitSegments_fuel (fuel1 : Nat) : ∀ (fuel2 : Nat) (first : Bool) (pos : CStr),
    pos.length ≤ fuel1 → pos.length ≤ fuel2 →
    emitSegments fuel1 first pos = emitSegments fuel2 first pos := by
  induction fuel1 with
  | zero =>
    intro fuel2 first pos h1 _
    have hp : pos = [] := List.length_eq_zero.mp (by omega)
    subst hp
    cases fuel2 <;> simp [emitSegments]
  | succ f ih =>
    intro fuel2 first pos h1 h2
    cases fuel2 with
    | zero =>
      have hp : pos = [] := List.length_eq_zero.mp (by omega)
      subst hp
      simp [emitSegments]
    | succ g =>
      unfold emitSegments
      by_cases he : pos.isEmpty = true
      · simp [he]
      · have he2 : pos.isEmpty = false := by simpa using he
        simp only [he2, Bool.false_eq_true, if_false]
        congr 1
        split
        · rfl
        · rename_i x pos1 hd
          have := dropWhile_tail_length _ pos x pos1 hd
          exact ih g false pos1 (by omega) (by omega)

/-- C2 (defect): at `PRINT "Hi\n"` the message holds one `\n` escape, yet the
data declaration written is `message_0 db "Hi",0`: one quoted literal and no
spliced byte 10, because the `while (*pos)` loop stops once the text left after
a newline is empty.  An escape that is followed by more text is spliced as the
claim says (`PRINT "Hi\nThere"` gives `"Hi",10,"There",0`). -/
theorem print_trailing_escape_dropped :
    isPrintDirective "PRINT \"Hi\\n\"\n".toList = true ∧
    printMessage (trim "PRINT \"Hi\\n\"\n".toList) = some "Hi\\n".toList ∧
    convert_escapes "Hi\\n".toList (MAX_LINE * 2) = "Hi\n".toList ∧
    messageDecl 0 (convert_escapes "Hi\\n".toList (MAX_LINE * 2)) =
      "message_0 db \"Hi\",0\n\n".toList ∧
    (expandLine initPrint "PRINT \"Hi\\n\"\n".toList).1 =
      printLabel 0 ++ printRoutine 0 ++ "message_0 db \"Hi\",0\n\n".toList ∧
    messageDecl 0 (convert_escapes "Hi\\nThere".toList (MAX_LINE * 2)) =
      "message_0 db \"Hi\",10,\"There\",0\n\n".toList := by
  decide

theorem collectLabel_label (label rest : CStr) (room : Nat) (hlen : label.length ≤ room)
    (hc : ∀ c ∈ label, isspace c = false ∧ c ≠ ':')
    (hrest : ∀ c, rest.head? = some c → (c = ':' ∨ isspace c = true)) :
    collectLabel (label ++ rest) room = (label, rest) := by
  induction label generalizing room with
  | nil =>
    cases rest with
    | nil => cases room <;> simp [collectLabel]
    | cons r rs =>
      cases room with
      | zero => simp [collectLabel]
      | succ n =>
        have := hrest r (by simp)
        rcases this with h | h <;> simp [collectLabel, h]
  | cons a as ih =>
    cases room with
    | zero => simp at hlen
    | succ n =>
      have ha := hc a (by simp)
      have := ih n (by simpa using hlen) (fun c hcm => hc c (by simp [hcm]))
      simp [collectLabel, ha.1, ha.2, this]

theorem isspace_colon : isspace ':' = false := by decide

theorem dropWhile_append_all (p : Char → Bool) (ws rest : CStr) (h : ∀ c ∈ ws, p c = true) :
    (ws ++ rest).dropWhile p = rest.dropWhile p := by
  induction ws with
  | nil => rfl
  | cons w ws ih =>
    have hw := h w (by simp)
    simp [List.dropWhile_cons, hw, ih (fun c hc => h c (by simp [hc]))]

theorem dropWhile_space_colon (ws rest : CStr) (h : ∀ c ∈ ws, isspace c = true) :
    (ws ++ ':' :: rest).dropWhile isspace = ':' :: rest := by
  rw [dropWhile_append_all _ _ _ h]
  simp [List.dropWhile_cons, isspace_colon]

/-- Label extraction on `GO`, whitespace, a label of at most 127 characters,
whitespace, a colon and any further text. -/
theorem extract_go_label_colon_ok (ws label ws2 rest : CStr)
    (hws : ∀ c ∈ ws, isspace c = true) (hlen : label.length ≤ 127)
    (hc : ∀ c ∈ label, isspace c = false ∧ c ≠ ':') (hws2 : ∀ c ∈ ws2, isspace c = true) :
    extract_go_label_colon ('G' :: 'O' :: (ws ++ (label ++ (ws2 ++ ':' :: rest)))) 128 =
      (true, label) := by
  have hG : isspace 'G' = false := by decide
  have hrest : ∀ c, (ws2 ++ ':' :: rest).head? = some c → (c = ':' ∨ isspace c = true) := by
    intro c hcm
    cases ws2 with
    | nil => left; simpa using hcm.symm
    | cons w ws3 =>
      right
      have : w = c := by simpa using hcm
      exact this ▸ hws2 w (by simp)
  have hcl := collectLabel_label label (ws2 ++ ':' :: rest) 127 hlen hc hrest
  have hskip : (label ++ (ws2 ++ ':' :: rest)).dropWhile isspace =
      label ++ (ws2 ++ ':' :: rest) ∨ label = [] := by
    cases label with
    | nil => right; rfl
    | cons a as =>
      left
      have ha := hc a (by simp)
      simp [List.dropWhile_cons, ha.1]
  unfold extract_go_label_colon
  simp only [List.dropWhile_cons, hG, Bool.false_eq_true, if_false, List.take_succ_cons,
    List.take_zero, str_GO, ne_eq, not_true_eq_false, List.drop_succ_cons, List.drop_zero,
    Nat.add_one_sub_one]
  rw [dropWhile_append_all _ _ _ hws]
  rcases hskip with h | h
  · rw [h, hcl]
    simp [dropWhile_space_colon _ _ hws2]
  · subst h
    simp only [List.nil_append]
    rw [dropWhile_space_colon _ _ hws2]
    simp [collectLabel, dropWhile_space_colon [] rest, List.dropWhile_cons, isspace_colon]

/-- The expansion of a node whose trimmed text is `GO`, whitespace, a label of
at most 127 characters, whitespace, a colon and any further text. -/
theorem expandLine_go_ok (st : PrintState) (raw ws label ws2 rest : CStr)
    (hws : ∀ c ∈ ws, isspace c = true) (hlen : label.length ≤ 127)
    (hc : ∀ c ∈ label, isspace c = false ∧ c ≠ ':') (hws2 : ∀ c ∈ ws2, isspace c = true)
    (ht : trim raw = 'G' :: 'O' :: (ws ++ (label ++ (ws2 ++ ':' :: rest)))) :
    expandLine st raw = ("jmp ".toList ++ label ++ "\n".toList, st) := by
  have hx := extract_go_label_colon_ok ws label ws2 rest hws hlen hc hws2
  unfold expandLine
  simp only [ht, hx]
  simp [str_STOP, str_STOP_LOOP, str_GO]

/-- C3 (as amended): for every non-empty label of at most 127 characters with
no whitespace and no colon, a node whose trimmed text is `GO <label>:` is
expanded to exactly `jmp <label>` and a newline, the print state unchanged. -/
theorem go_label_colon_expands (st : PrintState) (raw label : CStr) (_hne : label ≠ [])
    (hlen : label.length ≤ 127) (hc : ∀ c ∈ label, isspace c = false ∧ c ≠ ':')
    (ht : trim raw = "GO ".toList ++ label ++ ":".toList) :
    expandLine st raw = ("jmp ".toList ++ label ++ "\n".toList, st) := by
  have hgo : "GO ".toList = ['G', 'O', ' '] := by decide
  have hcolon : ":".toList = [':'] := by decide
  refine expandLine_go_ok st raw [' '] label [] [] (by decide) hlen hc (by simp) ?_
  rw [ht, hgo, hcolon]
  simp

/-- C3 (as amended) at the node `  GO loop:`. -/
theorem go_label_colon_expands_witness :
    "loop".toList ≠ [] ∧ "loop".toList.length ≤ 127 ∧
    (∀ c ∈ "loop".toList, isspace c = false ∧ c ≠ ':') ∧
    trim "  GO loop:\n".toList = "GO ".toList ++ "loop".toList ++ ":".toList ∧
    expandLine initPrint "  GO loop:\n".toList =
      ("jmp ".toList ++ "loop".toList ++ "\n".toList, initPrint) :=
  ⟨by decide, by decide, by decide, by decide,
    go_label_colon_expands initPrint "  GO loop:\n".toList "loop".toList (by decide) (by decide)
      (by decide) (by decide)⟩

/-- C3 (counterexample): the label of 128 letters `a` is non-empty and has no
whitespace and no colon, yet `GO <label>:` is written back verbatim, not as
`jmp <label>`: the copy loop stops after `sizeof(label) - 1 = 127` characters
and the colon test then reads the 128th letter. -/
theorem go_label_colon_long_label :
    List.replicate 128 'a' ≠ [] ∧
    (∀ c ∈ List.replicate 128 'a', isspace c = false ∧ c ≠ ':') ∧
    trim ("GO ".toList ++ List.replicate 128 'a' ++ ":".toList) =
      "GO ".toList ++ List.replicate 128 'a' ++ ":".toList ∧
    (expandLine initPrint ("GO ".toList ++ List.replicate 128 'a' ++ ":".toList)).1 =
      "GO ".toList ++ List.replicate 128 'a' ++ ":".toList ++ "\n".toList ∧
    (expandLine initPrint ("GO ".toList ++ List.replicate 128 'a' ++ ":".toList)).1 ≠
      "jmp ".toList ++ List.replicate 128 'a' ++ "\n".toList := by
  decide

/-- C4 (counterexample): on `GO :` and on `GO:` label extraction succeeds with
an empty label and the node is expanded to `jmp ` and a newline, not written
back unchanged. -/
theorem go_without_label_counterexample :
    trim "GO :".toList = "GO :".toList ∧
    (extract_go_label_colon "GO :".toList 128).1 = true ∧
    (expandLine initPrint "GO :".toList).1 = "jmp \n".toList ∧
    (expandLine initPrint "GO :".toList).1 ≠ "GO :\n".toList ∧
    (extract_go_label_colon "GO:".toList 128).1 = true ∧
    (expandLine initPrint "GO:".toList).1 = "jmp \n".toList ∧
    (expandLine initPrint "GO:".toList).1 ≠ "GO:\n".toList := by
  decide

/-- C4 (as amended): when the trimmed text is `GO`, optional whitespace and a
colon (no label before the colon), whatever follows the colon, label extraction
succeeds with the empty label and the node is expanded to `jmp ` followed by a
newline, the print state unchanged. -/
theorem go_without_label_expands (st : PrintState) (raw ws rest : CStr)
    (hws : ∀ c ∈ ws, isspace c = true)
    (ht : trim raw = "GO".toList ++ ws ++ ":".toList ++ rest) :
    extract_go_label_colon (trim raw) 128 = (true, []) ∧
    expandLine st raw = ("jmp \n".toList, st) := by
  have hcolon : ":".toList = [':'] := by decide
  have hjmp : "jmp \n".toList = "jmp ".toList ++ [] ++ "\n".toList := by decide
  have ht2 : trim raw = 'G' :: 'O' :: (ws ++ ([] ++ ([] ++ ':' :: rest))) := by
    rw [ht, str_GO, hcolon]; simp
  refine ⟨?_, ?_⟩
  · rw [ht2]
    exact extract_go_label_colon_ok ws [] [] rest hws (by simp) (by simp) (by simp)
  · rw [hjmp]
    exact expandLine_go_ok st raw ws [] [] rest hws (by simp) (by simp) (by simp) ht2

/-- C4 (as amended) at the node `GO :`. -/
theorem go_without_label_expands_witness :
    (∀ c ∈ " ".toList, isspace c = true) ∧
    trim "GO :\n".toList = "GO".toList ++ " ".toList ++ ":".toList ++ [] ∧
    extract_go_label_colon (trim "GO :\n".toList) 128 = (true, []) ∧
    expandLine initPrint "GO :\n".toList = ("jmp \n".toList, initPrint) :=
  ⟨by decide, by decide,
    go_without_label_expands initPrint "GO :\n".toList " ".toList [] (by decide) (by decide)⟩

theorem collectLabel_snd (p : CStr) (room : Nat) :
    (collectLabel p room).2 = p.dropWhile (fun c => c ≠ ':' && !isspace c) ∨
    ∃ c r, (collectLabel p room).2 = c :: r ∧ c ≠ ':' ∧ isspace c = false := by
  induction p generalizing room with
  | nil => left; cases room <;> rfl
  | cons c cs ih =>
    by_cases hok : c ≠ ':' ∧ isspace c = false
    · cases room with
      | zero => right; exact ⟨c, cs, rfl, hok.1, hok.2⟩
      | succ n =>
        have h1 : (collectLabel (c :: cs) (n + 1)).2 = (collectLabel cs n).2 := by
          simp [collectLabel, hok.1, hok.2]
        rw [h1]
        rcases ih n with h | h
        · left
          rw [h]
          simp [List.dropWhile_cons, hok.1, hok.2]
        · right; exact h
    · left
      have hok2 : ¬ (¬ c = ':' ∧ isspace c = false) := hok
      cases room with
      | zero => simp [collectLabel, List.dropWhile_cons, hok2]
      | succ n => simp [collectLabel, List.dropWhile_cons, hok2]

theorem extract_go_label_colon_fails (tl : CStr)
    (h : goLacksColon ('G' :: 'O' :: tl) = true) :
    (extract_go_label_colon ('G' :: 'O' :: tl) 128).1 = false := by
  have hG : isspace 'G' = false := by decide
  unfold extract_go_label_colon
  simp only [List.dropWhile_cons, hG, Bool.false_eq_true, if_false, List.take_succ_cons,
    List.take_zero, str_GO, ne_eq, not_true_eq_false, List.drop_succ_cons, List.drop_zero,
    Nat.add_one_sub_one]
  simp only [goLacksColon, List.drop_succ_cons, List.drop_zero] at h
  rcases collectLabel_snd (tl.dropWhile isspace) 127 with h1 | ⟨c, r, h1, h2, h3⟩
  · rw [h1]
    simpa using h
  · rw [h1]
    simp [List.dropWhile_cons, h3, h2]

/-- C5: a node whose trimmed text starts with `GO` and whose label is not
followed (after optional whitespace) by a colon, and a node whose trimmed text
starts with `PRINT` and holds fewer than two double-quote characters, are
written back as the trimmed text and one newline, and leave the print-block
counter and the most-recent-block id as they were. -/
theorem malformed_directive_passthrough (st : PrintState) (raw : CStr)
    (h : ((trim raw).take 2 = "GO".toList ∧ goLacksColon (trim raw) = true) ∨
      ((trim raw).take 5 = "PRINT".toList ∧ (trim raw).count '"' < 2)) :
    expandLine st raw = (trim raw ++ "\n".toList, st) := by
  rcases h with ⟨hgo, hl⟩ | ⟨hp, hq⟩
  · have hl2 := take_eq_append hgo
    rw [str_GO] at hl2
    simp only [List.cons_append, List.nil_append] at hl2
    rw [hl2] at hl
    have hx := extract_go_label_colon_fails _ hl
    unfold expandLine
    simp only
    rw [hl2]
    simp [str_STOP, str_STOP_LOOP, str_GO, hx]
  · have hd : isPrintDirective raw = false := by
      simp [isPrintDirective, hp]
      omega
    have hn := printMessage_none raw hd hp
    have hl2 := take_eq_append hp
    rw [str_PRINT] at hl2
    unfold expandLine
    simp only [hn]
    rw [hl2]
    simp [str_STOP, str_STOP_LOOP, str_GO, str_PRINT]

/-- C5 at the nodes `GO loop` and `PRINT "Hi`. -/
theorem malformed_directive_passthrough_witness :
    ((trim "GO loop\n".toList).take 2 = "GO".toList ∧
      goLacksColon (trim "GO loop\n".toList) = true) ∧
    expandLine initPrint "GO loop\n".toList = ("GO loop\n".toList, initPrint) ∧
    ((trim "PRINT \"Hi\n".toList).take 5 = "PRINT".toList ∧
      (trim "PRINT \"Hi\n".toList).count '"' < 2) ∧
    expandLine initPrint "PRINT \"Hi\n".toList = ("PRINT \"Hi\n".toList, initPrint) :=
  ⟨by decide,
    malformed_directive_passthrough initPrint "GO loop\n".toList (Or.inl (by decide)),
    by decide,
    malformed_directive_passthrough initPrint "PRINT \"Hi\n".toList (Or.inr (by decide))⟩

/-! ### Trimming -/

theorem trimRight_eq_rdropWhile (s : CStr) : trimRight s = s.rdropWhile isspace := rfl

theorem trimRight_concat_pos (s : CStr) (x : Char) (h : isspace x = true) :
    trimRight (s ++ [x]) = trimRight s := by
  simp only [trimRight_eq_rdropWhile]
  exact List.rdropWhile_concat_pos _ _ _ h

theorem trimRight_concat_neg (s : CStr) (x : Char) (h : isspace x = false) :
    trimRight (s ++ [x]) = s ++ [x] := by
  simp only [trimRight_eq_rdropWhile]
  exact List.rdropWhile_concat_neg _ _ _ (by simp [h])

theorem trimRight_cons_neg (c : Char) (s : CStr) (h : isspace c = false) :
    trimRight (c :: s) = c :: trimRight s := by
  induction s using List.reverseRecOn with
  | nil => simpa using trimRight_concat_neg [] c h
  | append_singleton s x ih =>
    cases hx : isspace x
    · rw [← List.cons_append, trimRight_concat_neg _ _ hx, trimRight_concat_neg _ _ hx]
      rfl
    · rw [← List.cons_append, trimRight_concat_pos _ _ hx, trimRight_concat_pos _ _ hx, ih]

theorem trimRight_sublist (s : CStr) : (trimRight s).Sublist s := by
  rw [trimRight_eq_rdropWhile]
  exact (List.rdropWhile_prefix isspace s).sublist

theorem trim_sublist (s : CStr) : (trim s).Sublist s :=
  (trimRight_sublist _).trans (List.dropWhile_sublist _)

theorem mem_of_mem_trim {s : CStr} {c : Char} (h : c ∈ trim s) : c ∈ s :=
  (trim_sublist s).subset h

/-- The trimmed text does not start with whitespace. -/
theorem trim_head (s : CStr) (c : Char) (r : CStr) (h : trim s = c :: r) : isspace c = false := by
  unfold trim at h
  cases hd : s.dropWhile isspace with
  | nil => rw [hd] at h; simp [trimRight] at h
  | cons a as =>
    have ha : isspace a = false := by
      have := List.head_dropWhile_not isspace s (by simp [hd])
      simpa [hd] using this
    rw [hd, trimRight_cons_neg _ _ ha] at h
    have : a = c := by simpa using congrArg List.head? h
    exact this ▸ ha

theorem dropWhile_trim (s : CStr) : (trim s).dropWhile isspace = trim s := by
  cases h : trim s with
  | nil => rfl
  | cons c r => simp [List.dropWhile_cons, trim_head s c r h]

theorem trim_concat_space (s : CStr) (x : Char) (h : isspace x = true) :
    trim (s ++ [x]) = trim s := by
  unfold trim
  rw [List.dropWhile_append]
  cases hd : s.dropWhile isspace with
  | nil => simp [List.dropWhile_cons, h, trimRight]
  | cons a as => simp only [List.isEmpty_cons, Bool.false_eq_true, if_false]
                 exact trimRight_concat_pos _ _ h

theorem loaderLine_eq (l : CStr) (h : l.length < MAX_LINE) : loaderLine l = trim l := by
  unfold loaderLine
  rw [List.take_of_length_le (by unfold MAX_LINE at *; omega)]

theorem fgetsResult_length {l : CStr} (h : fgetsResult l = true) : l.length < MAX_LINE := by
  simp only [fgetsResult, Bool.and_eq_true, decide_eq_true_eq] at h
  exact h.1.2

/-- The trimmed text of a buffer read by `fgets` holds no newline. -/
theorem newline_not_mem_trim {l : CStr} (h : fgetsResult l = true) : '\n' ∉ trim l := by
  simp only [fgetsResult, Bool.and_eq_true, decide_eq_true_eq, List.all_eq_true] at h
  obtain ⟨_, hn⟩ := h
  have hsp : isspace '\n' = true := by decide
  induction l using List.reverseRecOn with
  | nil => simp [trim, trimRight]
  | append_singleton s x _ =>
    rw [List.dropLast_concat] at hn
    have hs : '\n' ∉ s := fun hm => by simpa using hn _ hm
    cases hx : isspace x
    · intro hm
      have := mem_of_mem_trim hm
      rw [List.mem_append] at this
      rcases this with h1 | h1
      · exact hs h1
      · have : x = '\n' := by
          have h2 : '\n' = x := by simpa using h1
          exact h2.symm
        rw [this, hsp] at hx
        exact Bool.noConfusion hx
    · rw [trim_concat_space _ _ hx]
      exact fun hm => hs (mem_of_mem_trim hm)

theorem brace_line_head (x : CStr) (h : is_brace_line (trim x) = true) :
    ∃ r, trim x = '{' :: r ∨ trim x = '}' :: r := by
  unfold is_brace_line at h
  rw [dropWhile_trim] at h
  cases ht : trim x with
  | nil => simp [ht] at h
  | cons c r =>
    simp only [ht] at h
    by_cases hc : c = '{' ∨ c = '}'
    · rcases hc with hc | hc
      · exact ⟨r, Or.inl (by rw [hc])⟩
      · exact ⟨r, Or.inr (by rw [hc])⟩
    · simp [hc] at h

/-! ### Colours -/

theorem attrByte_eq (bg fg : Int) (hb : 0 ≤ bg ∧ bg ≤ 15) (hf : 0 ≤ fg ∧ fg ≤ 15) :
    attrByte bg fg = 16 * bg + fg := by
  obtain ⟨hb1, hb2⟩ := hb
  obtain ⟨hf1, hf2⟩ := hf
  interval_cases bg <;> interval_cases fg <;> rfl

/-- C7: for background and foreground in `[0,15]` the attribute
`(bg << 4) | (fg & 0x0F)` equals `16 * bg + fg`; it lies in `[0,255]`, its high
nibble is `bg` and its low nibble is `fg`. -/
theorem attr_byte_value (bg fg : Int) (hb : 0 ≤ bg ∧ bg ≤ 15) (hf : 0 ≤ fg ∧ fg ≤ 15) :
    attrByte bg fg = 16 * bg + fg ∧ 0 ≤ attrByte bg fg ∧ attrByte bg fg ≤ 255 ∧
    attrByte bg fg / 16 = bg ∧ attrByte bg fg % 16 = fg := by
  rw [attrByte_eq bg fg hb hf]
  omega

/-- C7 at background 1, foreground 14: the attribute is `0x1E`. -/
theorem attr_byte_value_witness :
    ((0 : Int) ≤ 1 ∧ (1 : Int) ≤ 15) ∧ ((0 : Int) ≤ 14 ∧ (14 : Int) ≤ 15) ∧
    (attrByte 1 14 = 16 * 1 + 14 ∧ 0 ≤ attrByte 1 14 ∧ attrByte 1 14 ≤ 255 ∧
      attrByte 1 14 / 16 = 1 ∧ attrByte 1 14 % 16 = 14) :=
  ⟨by decide, by decide, attr_byte_value 1 14 (by decide) (by decide)⟩

theorem str_colour_bg :
    "colour_bg".toList = ['c', 'o', 'l', 'o', 'u', 'r', '_', 'b', 'g'] := by decide

theorem str_colour_fg :
    "colour_fg".toList = ['c', 'o', 'l', 'o', 'u', 'r', '_', 'f', 'g'] := by decide

/-- A colour directive is not a brace line. -/
theorem not_brace_of_colour (x : CStr)
    (h : (trim x).take 9 = "colour_bg".toList ∨ (trim x).take 9 = "colour_fg".toList) :
    is_brace_line (trim x) = false := by
  cases hb : is_brace_line (trim x) with
  | false => rfl
  | true =>
    obtain ⟨r, hr | hr⟩ := brace_line_head x hb <;>
      rcases h with h | h <;>
      · rw [hr] at h
        simp [str_colour_bg, str_colour_fg] at h

theorem loadLine_bg_line (st : LoadState) (buffer : CStr)
    (h : (loaderLine buffer).take 9 = "colour_bg".toList) :
    loadLine st buffer =
      if 0 ≤ colourValue (loaderLine buffer) ∧ colourValue (loaderLine buffer) ≤ 15 then
        { st with bg_colour := colourValue (loaderLine buffer) }
      else st := by
  have hb := not_brace_of_colour (buffer.take (MAX_LINE - 1)) (Or.inl h)
  unfold loadLine
  simp only [h, if_true]
  unfold loaderLine
  simp [hb]

theorem loadLine_fg_line (st : LoadState) (buffer : CStr)
    (h : (loaderLine buffer).take 9 = "colour_fg".toList) :
    loadLine st buffer =
      if 0 ≤ colourValue (loaderLine buffer) ∧ colourValue (loaderLine buffer) ≤ 15 then
        { st with fg_colour := colourValue (loaderLine buffer) }
      else st := by
  have hb := not_brace_of_colour (buffer.take (MAX_LINE - 1)) (Or.inr h)
  have hne : ¬ ((loaderLine buffer).take 9 = "colour_bg".toList) := by
    rw [h]; decide
  unfold loadLine
  simp only [h, hne, if_true, if_false]
  unfold loaderLine
  simp [hb]

theorem loadLine_bg (st : LoadState) (buffer : CStr) :
    (loadLine st buffer).bg_colour =
      if (loaderLine buffer).take 9 = "colour_bg".toList ∧
          0 ≤ colourValue (loaderLine buffer) ∧ colourValue (loaderLine buffer) ≤ 15 then
        colourValue (loaderLine buffer)
      else st.bg_colour := by
  by_cases h : (loaderLine buffer).take 9 = "colour_bg".toList
  · rw [loadLine_bg_line st buffer h]
    by_cases hv : 0 ≤ colourValue (loaderLine buffer) ∧ colourValue (loaderLine buffer) ≤ 15
    · simp [h, hv]
    · simp [h, hv]
  · unfold loadLine
    simp only [h, false_and, if_false]
    split_ifs <;> rfl

theorem loadLine_fg (st : LoadState) (buffer : CStr) :
    (loadLine st buffer).fg_colour =
      if (loaderLine buffer).take 9 = "colour_fg".toList ∧
          0 ≤ colourValue (loaderLine buffer) ∧ colourValue (loaderLine buffer) ≤ 15 then
        colourValue (loaderLine buffer)
      else st.fg_colour := by
  by_cases h : (loaderLine buffer).take 9 = "colour_fg".toList
  · rw [loadLine_fg_line st buffer h]
    by_cases hv : 0 ≤ colourValue (loaderLine buffer) ∧ colourValue (loaderLine buffer) ≤ 15
    · simp [h, hv]
    · simp [h, hv]
  · unfold loadLine
    simp only [h, false_and, if_false]
    split_ifs <;> rfl

theorem loadLine_lines (st : LoadState) (buffer : CStr) :
    (loadLine st buffer).lines =
      if is_brace_line (loaderLine buffer) = true ∨
          (loaderLine buffer).take 9 = "colour_bg".toList ∨
          (loaderLine buffer).take 9 = "colour_fg".toList then st.lines
      else st.lines ++ [buffer] := by
  unfold loadLine
  simp only
  split_ifs <;> simp_all

/-- The colours stay within `[0,15]` along the first loop. -/
theorem foldl_loadLine_range (input : List CStr) (st : LoadState)
    (h : 0 ≤ st.bg_colour ∧ st.bg_colour ≤ 15 ∧ 0 ≤ st.fg_colour ∧ st.fg_colour ≤ 15) :
    0 ≤ (input.foldl loadLine st).bg_colour ∧ (input.foldl loadLine st).bg_colour ≤ 15 ∧
    0 ≤ (input.foldl loadLine st).fg_colour ∧ (input.foldl loadLine st).fg_colour ≤ 15 := by
  induction input generalizing st with
  | nil => exact h
  | cons l ls ih =>
    apply ih
    rw [loadLine_bg, loadLine_fg]
    obtain ⟨h1, h2, h3, h4⟩ := h
    refine ⟨?_, ?_, ?_, ?_⟩ <;> split_ifs with hc <;> first | assumption | exact hc.2.1 | exact hc.2.2

theorem atoiDigits_no_digit (s : CStr) (acc : Int) (h : ∀ c ∈ s, isdigit c = false) :
    atoiDigits s acc = acc := by
  cases s with
  | nil => rfl
  | cons c cs => simp [atoiDigits, h c (by simp)]

theorem parseDecimal_no_digit (s : CStr) (h : ∀ c ∈ s, isdigit c = false) :
    parseDecimal s = 0 := by
  unfold parseDecimal
  have hsub : ∀ c ∈ s.dropWhile isspace, isdigit c = false :=
    fun c hc => h c ((List.dropWhile_sublist _).subset hc)
  cases hd : s.dropWhile isspace with
  | nil => rfl
  | cons c cs =>
    rw [hd] at hsub
    have hcs : ∀ d ∈ cs, isdigit d = false := fun d hm => hsub d (by simp [hm])
    simp only
    split_ifs
    · rw [atoiDigits_no_digit cs 0 hcs]; rfl
    · exact atoiDigits_no_digit cs 0 hcs
    · exact atoiDigits_no_digit (c :: cs) 0 hsub

/-- On a numeral that fits an `int` the library conversion returns the number
it denotes. -/
theorem atoi_of_fits (s : CStr) (h : -(2 ^ 31) ≤ parseDecimal s ∧ parseDecimal s < 2 ^ 31) :
    atoi s = parseDecimal s := by
  obtain ⟨h1, h2⟩ := h
  unfold atoi strtol longToInt
  norm_num at h1 h2 ⊢
  split_ifs <;> omega

/-- The result of `atoi` is the value of a 32-bit `int`. -/
theorem atoi_range (s : CStr) : -(2 ^ 31) ≤ atoi s ∧ atoi s < 2 ^ 31 := by
  unfold atoi longToInt
  norm_num
  constructor <;> omega

theorem atoi_no_digit (s : CStr) (h : ∀ c ∈ s, isdigit c = false) : atoi s = 0 := by
  rw [atoi_of_fits s (by rw [parseDecimal_no_digit s h]; norm_num), parseDecimal_no_digit s h]

theorem colourValue_no_digit (line : CStr) (h : ∀ c ∈ line.drop 9, isdigit c = false) :
    colourValue line = 0 := by
  unfold colourValue
  apply atoi_no_digit
  intro c hc
  exact h c ((List.dropWhile_sublist _).subset hc)

/-- C8: the colour state starts at background 0, foreground 7 and stays within
`[0,15]` after every prefix of the input.  On a line whose working copy starts
with `colour_bg` (resp. `colour_fg`) and whose parsed value `v` is within
`[0,15]`, only the background (resp. foreground) changes, to `v`; when `v` is
outside `[0,15]` the state is left exactly as it was; an argument without any
digit parses as 0.  The parsed value is the 32-bit `int val` of the program. -/
theorem colour_state_invariant :
    (loader []).bg_colour = 0 ∧ (loader []).fg_colour = 7 ∧
    (∀ line : CStr, -(2 ^ 31) ≤ colourValue line ∧ colourValue line < 2 ^ 31) ∧
    (∀ (input : List CStr) (n : Nat),
      0 ≤ (loader (input.take n)).bg_colour ∧ (loader (input.take n)).bg_colour ≤ 15 ∧
      0 ≤ (loader (input.take n)).fg_colour ∧ (loader (input.take n)).fg_colour ≤ 15) ∧
    (∀ (st : LoadState) (buffer : CStr), (loaderLine buffer).take 9 = "colour_bg".toList →
      (0 ≤ colourValue (loaderLine buffer) ∧ colourValue (loaderLine buffer) ≤ 15 →
        loadLine st buffer = { st with bg_colour := colourValue (loaderLine buffer) }) ∧
      (¬ (0 ≤ colourValue (loaderLine buffer) ∧ colourValue (loaderLine buffer) ≤ 15) →
        loadLine st buffer = st) ∧
      ((∀ c ∈ (loaderLine buffer).drop 9, isdigit c = false) →
        loadLine st buffer = { st with bg_colour := 0 })) ∧
    (∀ (st : LoadState) (buffer : CStr), (loaderLine buffer).take 9 = "colour_fg".toList →
      (0 ≤ colourValue (loaderLine buffer) ∧ colourValue (loaderLine buffer) ≤ 15 →
        loadLine st buffer = { st with fg_colour := colourValue (loaderLine buffer) }) ∧
      (¬ (0 ≤ colourValue (loaderLine buffer) ∧ colourValue (loaderLine buffer) ≤ 15) →
        loadLine st buffer = st) ∧
      ((∀ c ∈ (loaderLine buffer).drop 9, isdigit c = false) →
        loadLine st buffer = { st with fg_colour := 0 })) := by
  refine ⟨rfl, rfl, fun line => atoi_range _, ?_, ?_, ?_⟩
  · intro input n
    exact foldl_loadLine_range _ initLoad (by decide)
  · intro st buffer h
    rw [loadLine_bg_line st buffer h]
    refine ⟨fun hv => by simp [hv], fun hv => by simp [hv], fun hd => ?_⟩
    rw [colourValue_no_digit _ hd]
    simp
  · intro st buffer h
    rw [loadLine_fg_line st buffer h]
    refine ⟨fun hv => by simp [hv], fun hv => by simp [hv], fun hd => ?_⟩
    rw [colourValue_no_digit _ hd]
    simp

/-- C8 on the lines `colour_bg 12`, `colour_fg 99`, `colour_fg blue`, and on
two numerals that do not fit an `int`: `colour_bg 4294967299` is parsed as 3
and `colour_fg -4294967290` as 6, both in range. -/
theorem colour_state_invariant_witness :
    loadLine initLoad "colour_bg 12\n".toList = { initLoad with bg_colour := 12 } ∧
    loadLine initLoad "colour_fg 99\n".toList = initLoad ∧
    loadLine initLoad "colour_fg blue\n".toList = { initLoad with fg_colour := 0 } ∧
    loadLine initLoad "colour_bg 4294967299\n".toList = { initLoad with bg_colour := 3 } ∧
    loadLine initLoad "colour_fg -4294967290\n".toList = { initLoad with fg_colour := 6 } ∧
    (loader ["colour_bg 12\n".toList, "colour_fg 99\n".toList]).bg_colour = 12 ∧
    (loader ["colour_bg 12\n".toList, "colour_fg 99\n".toList]).fg_colour = 7 := by
  have h := colour_state_invariant
  refine ⟨?_, ?_, ?_, ?_, ?_, by decide, by decide⟩
  · have := (h.2.2.2.2.1 initLoad "colour_bg 12\n".toList (by decide)).1 (by decide)
    rw [this]
    decide
  · exact (h.2.2.2.2.2 initLoad "colour_fg 99\n".toList (by decide)).2.1 (by decide)
  · exact (h.2.2.2.2.2 initLoad "colour_fg blue\n".toList (by decide)).2.2 (by decide)
  · have := (h.2.2.2.2.1 initLoad "colour_bg 4294967299\n".toList (by decide)).1 (by decide)
    rw [this]
    decide
  · have := (h.2.2.2.2.2 initLoad "colour_fg -4294967290\n".toList (by decide)).1 (by decide)
    rw [this]
    decide

theorem inRangeValues_cons (kw : CStr) (l : CStr) (ls : List CStr) :
    inRangeValues kw (l :: ls) =
      if (trim l).take 9 = kw ∧ 0 ≤ colourValue (trim l) ∧ colourValue (trim l) ≤ 15 then
        colourValue (trim l) :: inRangeValues kw ls
      else inRangeValues kw ls := by
  unfold inRangeValues
  by_cases h1 : (trim l).take 9 = kw
  · by_cases h2 : 0 ≤ colourValue (trim l) ∧ colourValue (trim l) ≤ 15
    · simp [List.filter_cons, h1, h2]
    · simp [List.filter_cons, h1, h2]
  · simp [List.filter_cons, h1]

theorem foldl_loadLine_bg (input : List CStr) (st : LoadState)
    (h : ∀ l ∈ input, fgetsResult l = true) :
    (input.foldl loadLine st).bg_colour =
      (inRangeValues "colour_bg".toList input).getLast?.getD st.bg_colour := by
  induction input generalizing st with
  | nil => rfl
  | cons l ls ih =>
    rw [List.foldl_cons, ih _ (fun x hx => h x (by simp [hx])), loadLine_bg,
      loaderLine_eq l (fgetsResult_length (h l (by simp))), inRangeValues_cons]
    split_ifs with hc
    · rw [List.getLast?_cons]; rfl
    · rfl

theorem foldl_loadLine_fg (input : List CStr) (st : LoadState)
    (h : ∀ l ∈ input, fgetsResult l = true) :
    (input.foldl loadLine st).fg_colour =
      (inRangeValues "colour_fg".toList input).getLast?.getD st.fg_colour := by
  induction input generalizing st with
  | nil => rfl
  | cons l ls ih =>
    rw [List.foldl_cons, ih _ (fun x hx => h x (by simp [hx])), loadLine_fg,
      loaderLine_eq l (fgetsResult_length (h l (by simp))), inRangeValues_cons]
    split_ifs with hc
    · rw [List.getLast?_cons]; rfl
    · rfl

/-- C6: for every input read by `fgets`, the attribute printed in the
screen-clear preamble is `(bg << 4) | (fg & 0x0F)` where `bg` (resp. `fg`) is
the value of the last in-range `colour_bg` (resp. `colour_fg`) directive of the
whole input, 0 (resp. 7) when there is none; it equals `16 * bg + fg`.  The
value of a directive is the 32-bit `int val` that `atoi` returns for its
argument.  The position of the directives among the lines that are expanded
plays no role. -/
theorem preamble_uses_final_colours (input : List CStr)
    (h : ∀ l ∈ input, fgetsResult l = true) :
    generate input =
      header ++
      preamble (attrByte (lastInRange "colour_bg".toList 0 input)
        (lastInRange "colour_fg".toList 7 input)) ++
      (expand (loader input).lines).flatten ++ footer ∧
    attrByte (lastInRange "colour_bg".toList 0 input) (lastInRange "colour_fg".toList 7 input) =
      16 * lastInRange "colour_bg".toList 0 input + lastInRange "colour_fg".toList 7 input := by
  have hbg : (loader input).bg_colour = lastInRange "colour_bg".toList 0 input :=
    foldl_loadLine_bg input initLoad h
  have hfg : (loader input).fg_colour = lastInRange "colour_fg".toList 7 input :=
    foldl_loadLine_fg input initLoad h
  have hr := foldl_loadLine_range input initLoad (by decide)
  refine ⟨?_, ?_⟩
  · unfold generate
    simp only [hbg, hfg]
  · rw [← hbg, ← hfg]
    exact attrByte_eq _ _ ⟨hr.1, hr.2.1⟩ ⟨hr.2.2.1, hr.2.2.2⟩

/-- C6 on an input whose colour directives come after the line that is
expanded, the last `colour_bg` being out of range: the attribute is `0x1E`.
On the input `colour_bg 4294967299` the value stored is 3 and the preamble
holds `mov ah, 0x37`. -/
theorem preamble_uses_final_colours_witness :
    lastInRange "colour_bg".toList 0 ["colour_bg 4294967299\n".toList] = 3 ∧
    "mov ah, 0x37".toList ∈ textLines (generate ["colour_bg 4294967299\n".toList]) ∧
    generate ["colour_bg 4294967299\n".toList] =
      header ++
      preamble (attrByte (lastInRange "colour_bg".toList 0 ["colour_bg 4294967299\n".toList])
        (lastInRange "colour_fg".toList 7 ["colour_bg 4294967299\n".toList])) ++
      (expand (loader ["colour_bg 4294967299\n".toList]).lines).flatten ++ footer ∧
    (∀ l ∈ ["STOP\n".toList, "colour_fg 14\n".toList, "colour_bg 1\n".toList,
      "colour_bg 16\n".toList], fgetsResult l = true) ∧
    lastInRange "colour_bg".toList 0 ["STOP\n".toList, "colour_fg 14\n".toList,
      "colour_bg 1\n".toList, "colour_bg 16\n".toList] = 1 ∧
    lastInRange "colour_fg".toList 7 ["STOP\n".toList, "colour_fg 14\n".toList,
      "colour_bg 1\n".toList, "colour_bg 16\n".toList] = 14 ∧
    fmt_02X ((attrByte 1 14) % 2 ^ 32).toNat = "1E".toList ∧
    generate ["STOP\n".toList, "colour_fg 14\n".toList, "colour_bg 1\n".toList,
        "colour_bg 16\n".toList] =
      header ++
      preamble (attrByte
        (lastInRange "colour_bg".toList 0 ["STOP\n".toList, "colour_fg 14\n".toList,
          "colour_bg 1\n".toList, "colour_bg 16\n".toList])
        (lastInRange "colour_fg".toList 7 ["STOP\n".toList, "colour_fg 14\n".toList,
          "colour_bg 1\n".toList, "colour_bg 16\n".toList])) ++
      (expand (loader ["STOP\n".toList, "colour_fg 14\n".toList, "colour_bg 1\n".toList,
        "colour_bg 16\n".toList]).lines).flatten ++ footer :=
  ⟨by decide, by decide,
    (preamble_uses_final_colours ["colour_bg 4294967299\n".toList] (by decide)).1,
    by decide, by decide, by decide, by decide,
    (preamble_uses_final_colours ["STOP\n".toList, "colour_fg 14\n".toList,
      "colour_bg 1\n".toList, "colour_bg 16\n".toList] (by decide)).1⟩

/-! ### Brace lines and the first loop -/

theorem filter_dropWhile_space (s : CStr) :
    (s.dropWhile isspace).filter (fun c => !isspace c) = s.filter (fun c => !isspace c) := by
  induction s with
  | nil => rfl
  | cons c cs ih =>
    cases hc : isspace c
    · simp [List.dropWhile_cons, hc]
    · simp [List.dropWhile_cons, hc, ih]

theorem filter_trimRight (s : CStr) :
    (trimRight s).filter (fun c => !isspace c) = s.filter (fun c => !isspace c) := by
  unfold trimRight
  rw [List.filter_reverse, filter_dropWhile_space, List.filter_reverse, List.reverse_reverse]

theorem filter_trim (s : CStr) :
    (trim s).filter (fun c => !isspace c) = s.filter (fun c => !isspace c) := by
  unfold trim
  rw [filter_trimRight, filter_dropWhile_space]

theorem braceOnly_trim (s : CStr) : braceOnly (trim s) = braceOnly s := by
  unfold braceOnly
  rw [filter_trim]

theorem dropWhile_isEmpty_eq (r : CStr) :
    (r.dropWhile isspace).isEmpty = (r.filter (fun c => !isspace c)).isEmpty := by
  induction r with
  | nil => rfl
  | cons c cs ih =>
    cases hc : isspace c
    · simp [List.dropWhile_cons, hc]
    · simp [List.dropWhile_cons, hc, ih]

/-- Function `is_brace_line` recognises exactly the cosmetic grouping lines. -/
theorem is_brace_line_eq (s : CStr) : is_brace_line s = braceOnly s := by
  unfold is_brace_line braceOnly
  rw [← filter_dropWhile_space s]
  cases hd : s.dropWhile isspace with
  | nil => rfl
  | cons c rest =>
    have hc : isspace c = false := by
      have := List.head_dropWhile_not isspace s (by simp [hd])
      simpa [hd] using this
    simp only [List.filter_cons, hc, Bool.not_false, if_true]
    rw [dropWhile_isEmpty_eq]
    cases hf : rest.filter (fun c => !isspace c) with
    | nil => simp
    | cons a as => simp

theorem loadLine_lines_fgets (st : LoadState) (l : CStr) (h : fgetsResult l = true) :
    (loadLine st l).lines =
      if (!braceOnly l && !isColourDirective l) = true then st.lines ++ [l] else st.lines := by
  rw [loadLine_lines, loaderLine_eq l (fgetsResult_length h), is_brace_line_eq, braceOnly_trim]
  unfold isColourDirective
  rw [str_colour_bg, str_colour_fg]
  by_cases h1 : braceOnly l = true <;> by_cases h2 : (trim l).take 9 = ['c', 'o', 'l', 'o', 'u', 'r', '_', 'b', 'g'] <;>
    by_cases h3 : (trim l).take 9 = ['c', 'o', 'l', 'o', 'u', 'r', '_', 'f', 'g'] <;>
    simp [h1, h2, h3]

theorem foldl_loadLine_lines (input : List CStr) (st : LoadState)
    (h : ∀ l ∈ input, fgetsResult l = true) :
    (input.foldl loadLine st).lines =
      st.lines ++ input.filter (fun l => !braceOnly l && !isColourDirective l) := by
  induction input generalizing st with
  | nil => simp
  | cons l ls ih =>
    rw [List.foldl_cons, ih _ (fun x hx => h x (by simp [hx])),
      loadLine_lines_fgets st l (h l (by simp)), List.filter_cons]
    split_ifs <;> simp

theorem loader_lines (input : List CStr) (h : ∀ l ∈ input, fgetsResult l = true) :
    (loader input).lines = input.filter (fun l => !braceOnly l && !isColourDirective l) := by
  unfold loader
  rw [foldl_loadLine_lines input initLoad h]
  rfl

/-- C10: for every input read by `fgets`, the list built by the first loop is
the input with the brace lines and the colour directives removed, in source
order: no brace line and no line whose trimmed text starts with `colour_bg` or
`colour_fg` is in it, and the non-blank lines of the list are exactly the
non-blank input lines that are neither, each once and in the same order. -/
theorem loader_keeps_order (input : List CStr) (h : ∀ l ∈ input, fgetsResult l = true) :
    (loader input).lines = input.filter (fun l => !braceOnly l && !isColourDirective l) ∧
    (∀ l ∈ (loader input).lines, braceOnly l = false ∧ isColourDirective l = false) ∧
    (loader input).lines.filter (fun l => !isBlank l) =
      input.filter (fun l => !isBlank l && !braceOnly l && !isColourDirective l) := by
  have hl := loader_lines input h
  refine ⟨hl, ?_, ?_⟩
  · intro l hm
    rw [hl, List.mem_filter] at hm
    simpa using hm.2
  · rw [hl, List.filter_filter]
    congr 1
    funext l
    cases isBlank l <;> cases braceOnly l <;> cases isColourDirective l <;> rfl

/-- C10 on an input with a brace line, two colour directives, a blank line
and a repeated line. -/
theorem loader_keeps_order_witness :
    (∀ l ∈ ["STOP\n".toList, " \x7b \n".toList, "colour_bg 3\n".toList, "\n".toList,
      "nop\n".toList, "colour_fg 9\n".toList, "STOP\n".toList], fgetsResult l = true) ∧
    (loader ["STOP\n".toList, " \x7b \n".toList, "colour_bg 3\n".toList, "\n".toList,
      "nop\n".toList, "colour_fg 9\n".toList, "STOP\n".toList]).lines =
      ["STOP\n".toList, "\n".toList, "nop\n".toList, "STOP\n".toList] ∧
    (loader ["STOP\n".toList, " \x7b \n".toList, "colour_bg 3\n".toList, "\n".toList,
      "nop\n".toList, "colour_fg 9\n".toList, "STOP\n".toList]).lines.filter
        (fun l => !isBlank l) =
      ["STOP\n".toList, "nop\n".toList, "STOP\n".toList] := by
  have h := loader_keeps_order ["STOP\n".toList, " \x7b \n".toList, "colour_bg 3\n".toList,
    "\n".toList, "nop\n".toList, "colour_fg 9\n".toList, "STOP\n".toList] (by decide)
  refine ⟨by decide, ?_, ?_⟩
  · rw [h.1]; decide
  · rw [h.2.2]; decide

/-! ### Lines of the output text -/

theorem textLines_ne_nil (t : CStr) : textLines t ≠ [] := by
  cases t with
  | nil => simp [textLines]
  | cons c cs =>
    unfold textLines
    split_ifs
    · simp
    · cases h : textLines cs with
      | nil => exact absurd h (textLines_ne_nil cs)
      | cons a as => simp [List.modifyHead]

theorem textLines_cons_newline (t : CStr) : textLines ('\n' :: t) = [] :: textLines t := by
  simp [textLines]

theorem textLines_cons_other (c : Char) (t : CStr) (h : c ≠ '\n') :
    textLines (c :: t) = (textLines t).modifyHead (c :: ·) := by
  simp [textLines, h]

theorem textLines_tail_cons (c : Char) (t : CStr) (h : c ≠ '\n') :
    (textLines (c :: t)).tail = (textLines t).tail := by
  rw [textLines_cons_other c t h]
  cases textLines t <;> simp [List.modifyHead]

theorem textLines_head_cons (c : Char) (t : CStr) (h : c ≠ '\n') :
    ∃ l, (textLines (c :: t)).head? = some (c :: l) := by
  rw [textLines_cons_other c t h]
  cases ht : textLines t with
  | nil => exact absurd ht (textLines_ne_nil t)
  | cons a as => exact ⟨a, by simp [List.modifyHead]⟩

theorem textLines_no_newline (a : CStr) (h : '\n' ∉ a) : textLines a = [a] := by
  induction a with
  | nil => rfl
  | cons c cs ih =>
    have hc : c ≠ '\n' := fun he => h (by simp [he])
    have hcs : '\n' ∉ cs := fun hm => h (by simp [hm])
    rw [textLines_cons_other c cs hc, ih hcs]
    rfl

theorem textLines_append_newline (a b : CStr) :
    textLines (a ++ '\n' :: b) = textLines a ++ textLines b := by
  induction a with
  | nil => simp [textLines]
  | cons c cs ih =>
    by_cases hc : c = '\n'
    · subst hc
      simp [textLines_cons_newline, ih]
    · rw [List.cons_append, textLines_cons_other _ _ hc, textLines_cons_other _ _ hc, ih]
      cases h : textLines cs with
      | nil => exact absurd h (textLines_ne_nil cs)
      | cons x xs => simp [List.modifyHead]

/-- A line that holds a character other than whitespace and braces is not a
cosmetic grouping line. -/
theorem braceOnly_of_plain (l : CStr) (c : Char) (hm : c ∈ l) (hc : plainChar c = true) :
    braceOnly l = false := by
  simp only [plainChar, Bool.and_eq_true, Bool.not_eq_true', bne_iff_ne, ne_eq] at hc
  obtain ⟨⟨h1, h2⟩, h3⟩ := hc
  have hmem : c ∈ l.filter (fun c => !isspace c) := by
    simp [List.mem_filter, hm, h1]
  unfold braceOnly
  cases hf : l.filter (fun c => !isspace c) with
  | nil => rfl
  | cons a as =>
    cases as with
    | nil =>
      rw [hf] at hmem
      have : c = a := by simpa using hmem
      subst this
      simp [h2, h3]
    | cons b bs => rfl

theorem noBraceLines_nil (s : Bool) : NoBraceLines s [] := by
  cases s <;> simp [NoBraceLines, textLines, braceOnly]

theorem noBraceLines_newline (t : CStr) (h : NoBraceLines false t) :
    NoBraceLines true ('\n' :: t) := by
  simpa [NoBraceLines, textLines_cons_newline] using h

theorem noBraceLines_empty_line (t : CStr) (h : NoBraceLines false t) :
    NoBraceLines false ('\n' :: t) := by
  intro l hl
  simp only [Bool.false_eq_true, if_false, textLines_cons_newline, List.mem_cons] at hl
  rcases hl with hl | hl
  · subst hl; rfl
  · exact h l (by simpa using hl)

theorem noBraceLines_inLine_cons (c : Char) (t : CStr) (hc : c ≠ '\n')
    (h : NoBraceLines true t) : NoBraceLines true (c :: t) := by
  intro l hl
  simp only [if_true, textLines_tail_cons c t hc] at hl
  exact h l (by simpa using hl)

theorem noBraceLines_plain_cons (c : Char) (t : CStr) (hc : c ≠ '\n') (hp : plainChar c = true)
    (h : NoBraceLines true t) : NoBraceLines false (c :: t) := by
  intro l hl
  simp only [Bool.false_eq_true, if_false] at hl
  obtain ⟨l0, hl0⟩ := textLines_head_cons c t hc
  cases hx : textLines (c :: t) with
  | nil => exact absurd hx (textLines_ne_nil _)
  | cons a as =>
    rw [hx] at hl hl0
    have ha : a = c :: l0 := by simpa using hl0
    rcases List.mem_cons.mp hl with h1 | h1
    · rw [h1, ha]
      exact braceOnly_of_plain _ c (by simp) hp
    · apply h l
      simp only [if_true]
      have := textLines_tail_cons c t hc
      rw [hx] at this
      simp only [List.tail_cons] at this
      rw [← this]
      exact h1

/-- Text without newline inserted in a line that is already judged. -/
theorem noBraceLines_mid (d t : CStr) (hd : '\n' ∉ d) (h : NoBraceLines true t) :
    NoBraceLines true (d ++ t) := by
  induction d with
  | nil => exact h
  | cons c cs ih =>
    have hc : c ≠ '\n' := fun he => hd (by simp [he])
    exact noBraceLines_inLine_cons c _ hc (ih (fun hm => hd (by simp [hm])))

/-- A fixed text that `scanText` accepts keeps the property. -/
theorem noBraceLines_scan (p : CStr) : ∀ (s s1 : Bool) (t : CStr), scanText s p = some s1 →
    NoBraceLines s1 t → NoBraceLines s (p ++ t) := by
  induction p with
  | nil =>
    intro s s1 t hs h
    simp only [scanText, Option.some.injEq] at hs
    subst hs
    exact h
  | cons c cs ih =>
    intro s s1 t hs h
    simp only [scanText] at hs
    by_cases hc : c = '\n'
    · subst hc
      simp only [if_true] at hs
      have := ih false s1 t hs h
      cases s
      · exact noBraceLines_empty_line _ this
      · exact noBraceLines_newline _ this
    · simp only [hc, if_false] at hs
      cases s
      · by_cases hp : plainChar c = true
        · simp only [hp, Bool.or_true, if_true] at hs
          exact noBraceLines_plain_cons c _ hc hp (ih true s1 t hs h)
        · simp [hp] at hs
      · simp only [Bool.true_or, if_true] at hs
        exact noBraceLines_inLine_cons c _ hc (ih true s1 t hs h)

/-- A whole line that is not a cosmetic grouping line. -/
theorem noBraceLines_line (a t : CStr) (ha : '\n' ∉ a) (hb : braceOnly a = false)
    (h : NoBraceLines false t) : NoBraceLines false (a ++ '\n' :: t) := by
  intro l hl
  simp only [Bool.false_eq_true, if_false, textLines_append_newline,
    textLines_no_newline a ha, List.singleton_append, List.mem_cons] at hl
  rcases hl with hl | hl
  · rw [hl]; exact hb
  · exact h l (by simpa using hl)

theorem toDigitsCore_mem (b fuel : Nat) : ∀ (n : Nat) (ds : CStr) (c : Char),
    c ∈ Nat.toDigitsCore b fuel n ds → c ∈ ds ∨ ∃ m, c = Nat.digitChar (m % b) := by
  induction fuel with
  | zero => intro n ds c h; left; simpa [Nat.toDigitsCore] using h
  | succ f ih =>
    intro n ds c h
    simp only [Nat.toDigitsCore] at h
    split_ifs at h
    · rcases List.mem_cons.mp h with h1 | h1
      · right; exact ⟨n, h1⟩
      · left; exact h1
    · rcases ih _ _ _ h with h1 | h1
      · rcases List.mem_cons.mp h1 with h2 | h2
        · right; exact ⟨n, h2⟩
        · left; exact h2
      · right; exact h1

theorem newline_not_mem_fmt_d (n : Nat) : '\n' ∉ fmt_d n := by
  intro h
  rcases toDigitsCore_mem 10 _ _ _ _ h with h1 | ⟨m, h1⟩
  · simp at h1
  · have hm : m % 10 < 10 := Nat.mod_lt _ (by omega)
    revert h1
    generalize m % 10 = k at hm
    interval_cases k <;> decide

theorem newline_not_mem_fmt_02X (n : Nat) : '\n' ∉ fmt_02X n := by
  intro h
  simp only [fmt_02X, List.mem_append, List.mem_replicate, List.mem_map] at h
  rcases h with ⟨_, h1⟩ | ⟨c, hc, h1⟩
  · exact absurd h1 (by decide)
  · rcases toDigitsCore_mem 16 _ _ _ _ hc with h2 | ⟨m, h2⟩
    · simp at h2
    · have hm : m % 16 < 16 := Nat.mod_lt _ (by omega)
      rw [h2] at h1
      revert h1
      generalize m % 16 = k at hm
      interval_cases k <;> decide

theorem newline_not_mem_emitSegments (fuel : Nat) : ∀ (first : Bool) (pos : CStr),
    '\n' ∉ emitSegments fuel first pos := by
  induction fuel with
  | zero => intro first pos; simp [emitSegments]
  | succ f ih =>
    intro first pos
    have ht : '\n' ∉ pos.takeWhile (fun c => c ≠ '\n') := by
      intro hm
      have := List.mem_takeWhile_imp hm
      simp at this
    have hr : '\n' ∉ (match pos.dropWhile (fun c => c ≠ '\n') with
        | [] => []
        | _ :: pos1 => emitSegments f false pos1) := by
      split
      · simp
      · exact ih _ _
    have hq : '\n' ∉ "\"".toList := by decide
    have hs : '\n' ∉ (if first = true then [] else ",10,".toList) := by
      cases first <;> decide
    unfold emitSegments
    by_cases h1 : pos.isEmpty = true
    · simp [h1]
    · have h2 : pos.isEmpty = false := by simpa using h1
      simp only [h2, Bool.false_eq_true, if_false, List.mem_append, not_or]
      exact ⟨⟨⟨⟨hs, hq⟩, ht⟩, hq⟩, hr⟩

theorem collectLabel_fst_mem (p : CStr) : ∀ (room : Nat) (c : Char),
    c ∈ (collectLabel p room).1 → isspace c = false := by
  induction p with
  | nil => intro room c h; cases room <;> simp [collectLabel] at h
  | cons a as ih =>
    intro room c h
    cases room with
    | zero => simp [collectLabel] at h
    | succ n =>
      simp only [collectLabel] at h
      split_ifs at h with hok
      · rcases List.mem_cons.mp h with h1 | h1
        · simp at hok
          rw [h1]; exact hok.2
        · exact ih n c h1
      · simp at h

theorem newline_not_mem_label (line : CStr) (n : Nat) :
    '\n' ∉ (extract_go_label_colon line n).2 := by
  intro h
  unfold extract_go_label_colon at h
  simp only at h
  split_ifs at h
  · simp at h
  · have := collectLabel_fst_mem _ _ _ h
    exact absurd this (by decide)

theorem noBraceLines_chainJump (p : Int) (id : Nat) (t : CStr) (h : NoBraceLines false t) :
    NoBraceLines false (chainJump p id ++ t) := by
  unfold chainJump
  split_ifs
  · simp only [List.append_assoc]
    refine noBraceLines_scan _ false true _ (by decide) ?_
    refine noBraceLines_mid _ _ (newline_not_mem_fmt_d _) ?_
    exact noBraceLines_scan _ true false _ (by decide) h
  · exact h

theorem noBraceLines_printLabel (id : Nat) (t : CStr) (h : NoBraceLines false t) :
    NoBraceLines false (printLabel id ++ t) := by
  simp only [printLabel, List.append_assoc]
  refine noBraceLines_scan _ false true _ (by decide) ?_
  refine noBraceLines_mid _ _ (newline_not_mem_fmt_d _) ?_
  exact noBraceLines_scan _ true false _ (by decide) h

theorem noBraceLines_printRoutine (id : Nat) (t : CStr) (h : NoBraceLines false t) :
    NoBraceLines false (printRoutine id ++ t) := by
  simp only [printRoutine, List.append_assoc]
  refine noBraceLines_scan _ false true _ (by decide) ?_
  refine noBraceLines_mid _ _ (newline_not_mem_fmt_d _) ?_
  refine noBraceLines_scan _ true true _ (by decide) ?_
  refine noBraceLines_mid _ _ (newline_not_mem_fmt_d _) ?_
  refine noBraceLines_scan _ true true _ (by decide) ?_
  refine noBraceLines_mid _ _ (newline_not_mem_fmt_d _) ?_
  refine noBraceLines_scan _ true true _ (by decide) ?_
  refine noBraceLines_mid _ _ (newline_not_mem_fmt_d _) ?_
  refine noBraceLines_scan _ true true _ (by decide) ?_
  refine noBraceLines_mid _ _ (newline_not_mem_fmt_d _) ?_
  refine noBraceLines_scan _ true true _ (by decide) ?_
  refine noBraceLines_mid _ _ (newline_not_mem_fmt_d _) ?_
  refine noBraceLines_scan _ true true _ (by decide) ?_
  refine noBraceLines_mid _ _ (newline_not_mem_fmt_d _) ?_
  refine noBraceLines_scan _ true true _ (by decide) ?_
  refine noBraceLines_mid _ _ (newline_not_mem_fmt_d _) ?_
  exact noBraceLines_scan _ true false _ (by decide) h

theorem noBraceLines_messageDecl (id : Nat) (conv : CStr) (t : CStr)
    (h : NoBraceLines false t) : NoBraceLines false (messageDecl id conv ++ t) := by
  simp only [messageDecl, List.append_assoc]
  refine noBraceLines_scan _ false true _ (by decide) ?_
  refine noBraceLines_mid _ _ (newline_not_mem_fmt_d _) ?_
  refine noBraceLines_scan _ true true _ (by decide) ?_
  refine noBraceLines_mid _ _ (newline_not_mem_emitSegments _ _ _) ?_
  exact noBraceLines_scan _ true false _ (by decide) h

theorem noBraceLines_expandPrint (st : PrintState) (msg t : CStr) (h : NoBraceLines false t) :
    NoBraceLines false ((expandPrint st msg).1 ++ t) := by
  simp only [expandPrint, List.append_assoc]
  exact noBraceLines_chainJump _ _ _ (noBraceLines_printLabel _ _
    (noBraceLines_printRoutine _ _ (noBraceLines_messageDecl _ _ _ h)))

theorem noBraceLines_passthrough (raw t : CStr) (hf : fgetsResult raw = true)
    (hb : braceOnly raw = false) (h : NoBraceLines false t) :
    NoBraceLines false ((trim raw ++ "\n".toList) ++ t) := by
  have hn : "\n".toList = ['\n'] := by decide
  rw [hn, List.append_assoc, List.singleton_append]
  exact noBraceLines_line _ _ (newline_not_mem_trim hf) (by rw [braceOnly_trim]; exact hb) h

/-- What one node writes holds no cosmetic grouping line. -/
theorem noBraceLines_expandLine (st : PrintState) (raw t : CStr) (hf : fgetsResult raw = true)
    (hb : braceOnly raw = false) (h : NoBraceLines false t) :
    NoBraceLines false ((expandLine st raw).1 ++ t) := by
  unfold expandLine
  simp only
  split_ifs with h1 h2 h3 h4 h5
  · exact noBraceLines_scan (STOP ++ "\n".toList) false false _ (by decide) h
  · exact noBraceLines_scan (STOP_LOOP ++ "\n".toList) false false _ (by decide) h
  · simp only [List.append_assoc]
    refine noBraceLines_scan _ false true _ (by decide) ?_
    refine noBraceLines_mid _ _ (newline_not_mem_label _ _) ?_
    exact noBraceLines_scan _ true false _ (by decide) h
  · exact noBraceLines_passthrough raw t hf hb h
  · split
    · exact noBraceLines_expandPrint _ _ _ h
    · exact noBraceLines_passthrough raw t hf hb h
  · exact noBraceLines_passthrough raw t hf hb h

theorem noBraceLines_expandFrom (lines : List CStr) : ∀ (st : PrintState) (t : CStr),
    (∀ l ∈ lines, fgetsResult l = true ∧ braceOnly l = false) → NoBraceLines false t →
    NoBraceLines false ((expandFrom st lines).flatten ++ t) := by
  induction lines with
  | nil => intro st t _ h; simpa [expandFrom] using h
  | cons raw rest ih =>
    intro st t hl h
    simp only [expandFrom, List.flatten_cons, List.append_assoc]
    have hr := hl raw (by simp)
    exact noBraceLines_expandLine st raw _ hr.1 hr.2
      (ih _ t (fun l hm => hl l (by simp [hm])) h)

theorem noBraceLines_preamble (attr : Int) (t : CStr) (h : NoBraceLines false t) :
    NoBraceLines false (preamble attr ++ t) := by
  simp only [preamble, List.append_assoc]
  refine noBraceLines_scan _ false true _ (by decide) ?_
  refine noBraceLines_mid _ _ (newline_not_mem_fmt_02X _) ?_
  refine noBraceLines_scan _ true true _ (by decide) ?_
  refine noBraceLines_mid _ _ (newline_not_mem_fmt_d _) ?_
  exact noBraceLines_scan _ true false _ (by decide) h

/-- The generated text holds no cosmetic grouping line. -/
theorem noBraceLines_generate (input : List CStr) (h : ∀ l ∈ input, fgetsResult l = true) :
    NoBraceLines false (generate input) := by
  have hl := loader_lines input h
  unfold generate
  simp only [List.append_assoc]
  refine noBraceLines_scan _ false false _ (by decide) ?_
  refine noBraceLines_preamble _ _ ?_
  refine noBraceLines_expandFrom _ _ _ ?_ ?_
  · intro l hm
    rw [hl, List.mem_filter] at hm
    refine ⟨h l hm.1, ?_⟩
    have := hm.2
    simp only [Bool.and_eq_true, Bool.not_eq_true'] at this
    exact this.1
  · have := noBraceLines_scan footer false false [] (by decide) (noBraceLines_nil false)
    simpa using this

theorem foldl_loadLine_filter (input : List CStr) (st : LoadState)
    (h : ∀ l ∈ input, fgetsResult l = true) :
    (input.filter (fun l => !braceOnly l)).foldl loadLine st = input.foldl loadLine st := by
  induction input generalizing st with
  | nil => rfl
  | cons l ls ih =>
    have hls : ∀ x ∈ ls, fgetsResult x = true := fun x hx => h x (by simp [hx])
    cases hb : braceOnly l
    · simp only [List.filter_cons, hb, Bool.not_false, if_true, List.foldl_cons]
      exact ih _ hls
    · have hst : loadLine st l = st := by
        unfold loadLine
        simp [loaderLine_eq l (fgetsResult_length (h l (by simp))), is_brace_line_eq,
          braceOnly_trim, hb]
      simp only [List.filter_cons, hb, Bool.not_true, Bool.false_eq_true, if_false,
        List.foldl_cons, hst]
      exact ih _ hls

theorem generate_filter (input : List CStr) (h : ∀ l ∈ input, fgetsResult l = true) :
    generate (input.filter (fun l => !braceOnly l)) = generate input := by
  unfold generate loader
  rw [foldl_loadLine_filter input initLoad h]

/-- C9: two inputs read by `fgets` that differ only by lines made of one `{`
or `}` and whitespace (inserted or deleted anywhere, in any number) give
exactly the same generated text, and no line of the generated text is such a
line. -/
theorem brace_lines_do_not_interfere (input1 input2 : List CStr)
    (h1 : ∀ l ∈ input1, fgetsResult l = true) (h2 : ∀ l ∈ input2, fgetsResult l = true)
    (heq : input1.filter (fun l => !braceOnly l) = input2.filter (fun l => !braceOnly l)) :
    generate input1 = generate input2 ∧
    (∀ l ∈ textLines (generate input1), braceOnly l = false) := by
  refine ⟨?_, ?_⟩
  · rw [← generate_filter input1 h1, ← generate_filter input2 h2, heq]
  · have := noBraceLines_generate input1 h1
    simpa [NoBraceLines] using this

/-- C9 on a program with and without grouping lines around its PRINT and
colour directives. -/
theorem brace_lines_do_not_interfere_witness :
    (∀ l ∈ ["\x7b\n".toList, "colour_bg 1\n".toList, " \x7d \n".toList, "PRINT \"a\"\n".toList,
      "\t\x7b\n".toList, "PRINT \"b\"\n".toList, "\x7d\n".toList], fgetsResult l = true) ∧
    (∀ l ∈ ["colour_bg 1\n".toList, "PRINT \"a\"\n".toList, "PRINT \"b\"\n".toList],
      fgetsResult l = true) ∧
    generate ["\x7b\n".toList, "colour_bg 1\n".toList, " \x7d \n".toList, "PRINT \"a\"\n".toList,
        "\t\x7b\n".toList, "PRINT \"b\"\n".toList, "\x7d\n".toList] =
      generate ["colour_bg 1\n".toList, "PRINT \"a\"\n".toList, "PRINT \"b\"\n".toList] ∧
    (∀ l ∈ textLines (generate ["\x7b\n".toList, "colour_bg 1\n".toList, " \x7d \n".toList,
      "PRINT \"a\"\n".toList, "\t\x7b\n".toList, "PRINT \"b\"\n".toList, "\x7d\n".toList]),
      braceOnly l = false) :=
  ⟨by decide, by decide,
    brace_lines_do_not_interfere
      ["\x7b\n".toList, "colour_bg 1\n".toList, " \x7d \n".toList, "PRINT \"a\"\n".toList,
        "\t\x7b\n".toList, "PRINT \"b\"\n".toList, "\x7d\n".toList]
      ["colour_bg 1\n".toList, "PRINT \"a\"\n".toList, "PRINT \"b\"\n".toList]
      (by decide) (by decide) (by decide)⟩

/-! ### The example of the specification, halts and verbatim lines -/

theorem fmt_d_isdigit (n : Nat) : ∀ c ∈ fmt_d n, isdigit c = true := by
  intro c h
  rcases toDigitsCore_mem 10 _ _ _ _ h with h1 | ⟨m, h1⟩
  · simp at h1
  · have hm : m % 10 < 10 := Nat.mod_lt _ (by omega)
    rw [h1]
    generalize m % 10 = k at hm
    interval_cases k <;> decide

/-- C11: for the example input `colour_bg 1`, `colour_fg 14`,
`PRINT "Hi\nThere"`, `STOP` the generated text is the one displayed: the
preamble holds `mov ah, 0x1E`, the only print block is block 0 with the data
declaration `message_0 db "Hi",10,"There",0`, the halt `cli` / `hlt` of STOP
follows that block, no chaining jump `jmp print_<id>` is written (the only
lines that begin with `jmp print_` are the two `jmp print_loop_0` of the
routine), and the text ends with `db 0x55` then `db 0xAA`. -/
theorem spec_example_output :
    generate specExample =
      ("bits 16\norg 0x7C00\n\n" ++
       "cli\nmov ax, 0xB800\nmov es, ax\nxor di, di\nmov cx, 2000\nmov al, ' '\n" ++
       "mov ah, 0x1E\n" ++
       "clear_loop:\nmov [es:di], al\ninc di\nmov [es:di], ah\ninc di\nloop clear_loop\n\n" ++
       "mov di, 3998\n" ++
       "print_0:\ncli\nxor ax, ax\nmov ds, ax\nmov si, message_0\n" ++
       "print_loop_0:\nlodsb\nor al, al\njz print_done_0\ncmp al, 10\njne print_char_0\n" ++
       "mov al, 13\nmov ah, 0x0E\nint 0x10\nmov al, 10\nmov ah, 0x0E\nint 0x10\n" ++
       "jmp print_loop_0\nprint_char_0:\nmov ah, 0x0E\nint 0x10\njmp print_loop_0\n" ++
       "print_done_0:\nsti\n" ++
       "message_0 db \"Hi\",10,\"There\",0\n\n" ++
       "cli\nhlt\n" ++
       "\ncli\nhlt\njmp $\ntimes 510-($-$$) db 0\ndb 0x55\ndb 0xAA\n").toList ∧
    "mov ah, 0x1E".toList ∈ textLines (preamble (attrByte (loader specExample).bg_colour
      (loader specExample).fg_colour)) ∧
    expand (loader specExample).lines =
      [printLabel 0 ++ printRoutine 0 ++ "message_0 db \"Hi\",10,\"There\",0\n\n".toList,
       "cli\nhlt\n".toList] ∧
    "message_0 db \"Hi\",10,\"There\",0".toList ∈ textLines (generate specExample) ∧
    (∀ k, "jmp print_".toList ++ fmt_d k ∉ textLines (generate specExample)) ∧
    (textLines (generate specExample)).filter (fun l => l.take 10 = "jmp print_".toList) =
      ["jmp print_loop_0".toList, "jmp print_loop_0".toList] ∧
    (textLines (generate specExample)).reverse.take 3 =
      [[], "db 0xAA".toList, "db 0x55".toList] := by
  refine ⟨by decide, by decide, by decide, by decide, ?_, by decide, by decide⟩
  intro k hk
  have hall : ∀ l ∈ textLines (generate specExample),
      l.take 10 = "jmp print_".toList → (l.drop 10).head? = some 'l' := by decide
  have h1 := hall _ hk (by simp)
  simp only [List.drop_left' (show "jmp print_".toList.length = 10 by decide)] at h1
  cases hd : fmt_d k with
  | nil => simp [hd] at h1
  | cons c cs =>
    have hc := fmt_d_isdigit k c (by simp [hd])
    rw [hd] at h1
    have : c = 'l' := by simpa using h1
    rw [this] at hc
    exact absurd hc (by decide)

theorem expandLine_verbatim (st : PrintState) (raw : CStr)
    (h1 : trim raw ≠ "STOP".toList) (h2 : trim raw ≠ "STOP_LOOP".toList)
    (h3 : (trim raw).take 2 ≠ "GO".toList) (h4 : (trim raw).take 5 ≠ "PRINT".toList) :
    expandLine st raw = (trim raw ++ "\n".toList, st) := by
  unfold expandLine
  simp only [h1, h2, h3, h4, if_false]

/-- C12: a node whose trimmed text is exactly `STOP` is expanded to
`cli`, `hlt`; one whose trimmed text is exactly `STOP_LOOP` to `cli`, `hlt`,
`jmp $`; any other node whose trimmed text begins with `STOP` is written back
verbatim, which is neither of the two sequences. -/
theorem halt_directives_exact :
    (∀ (st : PrintState) (raw : CStr), trim raw = "STOP".toList →
      expandLine st raw = ("cli\nhlt\n".toList, st)) ∧
    (∀ (st : PrintState) (raw : CStr), trim raw = "STOP_LOOP".toList →
      expandLine st raw = ("cli\nhlt\njmp $\n".toList, st)) ∧
    (∀ (st : PrintState) (raw : CStr), (trim raw).take 4 = "STOP".toList →
      trim raw ≠ "STOP".toList → trim raw ≠ "STOP_LOOP".toList →
      expandLine st raw = (trim raw ++ "\n".toList, st) ∧
      (expandLine st raw).1 ≠ "cli\nhlt\n".toList ∧
      (expandLine st raw).1 ≠ "cli\nhlt\njmp $\n".toList) := by
  refine ⟨?_, ?_, ?_⟩
  · intro st raw h
    unfold expandLine
    simp only [h, if_true]
    rfl
  · intro st raw h
    have hne : "STOP_LOOP".toList ≠ "STOP".toList := by decide
    unfold expandLine
    simp only [h, hne, if_true, if_false]
    rfl
  · intro st raw h4 h1 h2
    have hl := take_eq_append h4
    have hv : expandLine st raw = (trim raw ++ "\n".toList, st) := by
      apply expandLine_verbatim st raw h1 h2
      · rw [hl]; simp
      · rw [hl]; simp
    refine ⟨hv, ?_, ?_⟩
    · rw [hv, hl]; simp
    · rw [hv, hl]; simp

/-- C12 on the nodes `STOP`, `STOP_LOOP` and `STOP now`. -/
theorem halt_directives_exact_witness :
    expandLine initPrint " STOP\n".toList = ("cli\nhlt\n".toList, initPrint) ∧
    expandLine initPrint "STOP_LOOP\n".toList = ("cli\nhlt\njmp $\n".toList, initPrint) ∧
    expandLine initPrint "STOP now\n".toList = ("STOP now\n".toList, initPrint) := by
  have h := halt_directives_exact
  refine ⟨h.1 _ _ (by decide), h.2.1 _ _ (by decide), ?_⟩
  have := (h.2.2 initPrint "STOP now\n".toList (by decide) (by decide) (by decide)).1
  rw [this]
  decide

/-- C13: a node whose trimmed text is not `STOP`, not `STOP_LOOP` and does not
start with `GO` or `PRINT` is written back as the trimmed text and one newline,
and the print-block state is unchanged. -/
theorem other_lines_verbatim (st : PrintState) (raw : CStr)
    (h1 : trim raw ≠ "STOP".toList) (h2 : trim raw ≠ "STOP_LOOP".toList)
    (h3 : (trim raw).take 2 ≠ "GO".toList) (h4 : (trim raw).take 5 ≠ "PRINT".toList) :
    expandLine st raw = (trim raw ++ "\n".toList, st) :=
  expandLine_verbatim st raw h1 h2 h3 h4

/-- C13 on the node `  mov ax, 1`. -/
theorem other_lines_verbatim_witness :
    trim "  mov ax, 1 \n".toList ≠ "STOP".toList ∧
    trim "  mov ax, 1 \n".toList ≠ "STOP_LOOP".toList ∧
    (trim "  mov ax, 1 \n".toList).take 2 ≠ "GO".toList ∧
    (trim "  mov ax, 1 \n".toList).take 5 ≠ "PRINT".toList ∧
    trim "  mov ax, 1 \n".toList = "mov ax, 1".toList ∧
    expandLine initPrint "  mov ax, 1 \n".toList =
      (trim "  mov ax, 1 \n".toList ++ "\n".toList, initPrint) :=
  ⟨by decide, by decide, by decide, by decide, by decide,
    other_lines_verbatim initPrint "  mov ax, 1 \n".toList (by decide) (by decide) (by decide)
      (by decide)⟩

/-- C20: when the trimmed text is `GO`, any whitespace (none included), a
label `L` of at most 127 characters without whitespace or colon, any
whitespace, a colon and any further text, the node is expanded to exactly
`jmp L` and a newline, the print state unchanged.  So `GOLD:` becomes `jmp LD`
and `GO a: junk` becomes `jmp a`. -/
theorem go_spacing_and_trailing_text (st : PrintState) (raw ws label ws2 rest : CStr)
    (hws : ∀ c ∈ ws, isspace c = true) (hlen : label.length ≤ 127)
    (hc : ∀ c ∈ label, isspace c = false ∧ c ≠ ':') (hws2 : ∀ c ∈ ws2, isspace c = true)
    (ht : trim raw = "GO".toList ++ ws ++ label ++ ws2 ++ ":".toList ++ rest) :
    expandLine st raw = ("jmp ".toList ++ label ++ "\n".toList, st) := by
  have hcolon : ":".toList = [':'] := by decide
  refine expandLine_go_ok st raw ws label ws2 rest hws hlen hc hws2 ?_
  rw [ht, str_GO, hcolon]
  simp

/-- C20 on the nodes `GOLD:` and `GO a: junk`. -/
theorem go_spacing_and_trailing_text_witness :
    (trim "GOLD:\n".toList = "GO".toList ++ [] ++ "LD".toList ++ [] ++ ":".toList ++ [] ∧
      expandLine initPrint "GOLD:\n".toList = ("jmp LD\n".toList, initPrint)) ∧
    (trim "GO a: junk\n".toList =
        "GO".toList ++ " ".toList ++ "a".toList ++ [] ++ ":".toList ++ " junk".toList ∧
      expandLine initPrint "GO a: junk\n".toList = ("jmp a\n".toList, initPrint)) :=
  ⟨⟨by decide,
    go_spacing_and_trailing_text initPrint "GOLD:\n".toList [] "LD".toList [] []
      (by decide) (by decide) (by decide) (by decide) (by decide)⟩,
   ⟨by decide,
    go_spacing_and_trailing_text initPrint "GO a: junk\n".toList " ".toList "a".toList []
      " junk".toList (by decide) (by decide) (by decide) (by decide) (by decide)⟩⟩

/-- C14: for every input the generated text is the header
`bits 16`, `org 0x7C00`, an empty line; then the preamble for the attribute of
the final colours; then what the expansion loop writes for the buffered lines,
node after node in list order; then the fixed footer.  The preamble, whatever
the attribute, fills 2000 cells (`mov cx, 2000`) and ends with `mov di, 3998`,
and `3998 = 24*80*2 + 79*2`.  Header and footer are constants and the
preamble depends on the attribute only. -/
theorem generated_text_layout (input : List CStr) :
    generate input =
      "bits 16\norg 0x7C00\n\n".toList ++
      preamble (attrByte (loader input).bg_colour (loader input).fg_colour) ++
      (expand (loader input).lines).flatten ++
      "\ncli\nhlt\njmp $\ntimes 510-($-$$) db 0\ndb 0x55\ndb 0xAA\n".toList ∧
    (∀ attr : Int, preamble attr =
      "cli\nmov ax, 0xB800\nmov es, ax\nxor di, di\nmov cx, 2000\nmov al, ' '\nmov ah, 0x".toList
        ++ fmt_02X (attr % 2 ^ 32).toNat ++
      ("\nclear_loop:\nmov [es:di], al\ninc di\nmov [es:di], ah\ninc di\nloop clear_loop\n\n" ++
        "mov di, 3998\n").toList) ∧
    24 * 80 * 2 + 79 * 2 = 3998 ∧
    (expand (loader input).lines).length = (loader input).lines.length ∧
    (∀ i : Nat, (expand (loader input).lines)[i]? =
      (loader input).lines[i]?.map
        (fun raw => (expandLine (stateAt (printsBefore (loader input).lines i)) raw).1)) := by
  refine ⟨rfl, ?_, rfl, expandFrom_length _ _, ?_⟩
  · intro attr
    have h1 : fmt_d (24 * 80 * 2 + 79 * 2) = "3998".toList := by decide
    have h2 : ("\nclear_loop:\nmov [es:di], al\ninc di\nmov [es:di], ah\ninc di\nloop clear_loop\n\n"
        ++ "mov di, 3998\n").toList =
        "\nclear_loop:\nmov [es:di], al\ninc di\nmov [es:di], ah\ninc di\nloop clear_loop\n\nmov di, ".toList
          ++ "3998".toList ++ "\n".toList := by decide
    unfold preamble
    rw [h1, h2]
    simp only [List.append_assoc]
  · intro i
    unfold expand
    rw [initPrint_eq, expandFrom_getElem]
    simp

/-- C14 on the input `colour_bg 2`, `STOP`. -/
theorem generated_text_layout_witness :
    generate ["colour_bg 2\n".toList, "STOP\n".toList] =
      "bits 16\norg 0x7C00\n\n".toList ++
      ("cli\nmov ax, 0xB800\nmov es, ax\nxor di, di\nmov cx, 2000\nmov al, ' '\nmov ah, 0x27\n" ++
        "clear_loop:\nmov [es:di], al\ninc di\nmov [es:di], ah\ninc di\nloop clear_loop\n\n" ++
        "mov di, 3998\n").toList ++
      "cli\nhlt\n".toList ++
      "\ncli\nhlt\njmp $\ntimes 510-($-$$) db 0\ndb 0x55\ndb 0xAA\n".toList := by
  rw [(generated_text_layout ["colour_bg 2\n".toList, "STOP\n".toList]).1]
  decide

/-- C15: trimming a trimmed string changes nothing, and a trimmed string
neither starts nor ends with a whitespace character. -/
theorem trim_idempotent (s : CStr) :
    trim (trim s) = trim s ∧
    (∀ c, (trim s).head? = some c → isspace c = false) ∧
    (∀ c, (trim s).getLast? = some c → isspace c = false) := by
  refine ⟨?_, ?_, ?_⟩
  · have h : trim (trim s) = trimRight (trim s) := by
      show trimRight ((trim s).dropWhile isspace) = trimRight (trim s)
      rw [dropWhile_trim]
    rw [h]
    show trimRight (trimRight (s.dropWhile isspace)) = trimRight (s.dropWhile isspace)
    simp only [trimRight_eq_rdropWhile]
    exact List.rdropWhile_idempotent _ _
  · intro c hc
    cases ht : trim s with
    | nil => simp [ht] at hc
    | cons a r =>
      rw [ht] at hc
      have : a = c := by simpa using hc
      exact this ▸ trim_head s a r ht
  · intro c hc
    have hne : (s.dropWhile isspace).rdropWhile isspace ≠ [] := by
      intro h0
      have : trim s = [] := h0
      simp [this] at hc
    have hl := List.rdropWhile_last_not isspace (s.dropWhile isspace) hne
    have hg : (trim s).getLast? = some (((s.dropWhile isspace).rdropWhile isspace).getLast hne) :=
      List.getLast?_eq_getLast _ hne
    rw [hg] at hc
    have : ((s.dropWhile isspace).rdropWhile isspace).getLast hne = c := by simpa using hc
    rw [this] at hl
    simpa using hl

/-- C15 on the string ` \t GO  x: \r\n`. -/
theorem trim_idempotent_witness :
    trim " \t GO  x: \r\n".toList = "GO  x:".toList ∧
    trim (trim " \t GO  x: \r\n".toList) = trim " \t GO  x: \r\n".toList := by
  exact ⟨by decide, (trim_idempotent " \t GO  x: \r\n".toList).1⟩

theorem trim_of_blank (l : CStr) (h : isBlank l = true) : trim l = [] := by
  have hd : l.dropWhile isspace = [] := by
    rw [List.dropWhile_eq_nil_iff]
    simpa [isBlank] using h
  simp [trim, hd, trimRight]

theorem isBlank_take (l : CStr) (n : Nat) (h : isBlank l = true) : isBlank (l.take n) = true := by
  simp only [isBlank, List.all_eq_true] at h ⊢
  exact fun c hc => h c (List.mem_of_mem_take hc)

/-- C18 (counterexample): the blank line `\n` is appended to the list by the
first loop and the expansion loop writes an empty line for it, so the generated
text with a blank line between two `STOP` differs from the one without. -/
theorem blank_line_counterexample :
    isBlank "\n".toList = true ∧
    (loader ["STOP\n".toList, "\n".toList, "STOP\n".toList]).lines =
      ["STOP\n".toList, "\n".toList, "STOP\n".toList] ∧
    expand ["STOP\n".toList, "\n".toList, "STOP\n".toList] =
      ["cli\nhlt\n".toList, "\n".toList, "cli\nhlt\n".toList] ∧
    generate ["STOP\n".toList, "\n".toList, "STOP\n".toList] ≠
      generate ["STOP\n".toList, "STOP\n".toList] := by
  decide

/-- C18 (as amended): a blank buffer (empty or whitespace only) is appended to
the list by the first loop, colours unchanged, and the expansion loop writes
one empty line for it, print state unchanged. -/
theorem blank_line_is_buffered (st : LoadState) (ps : PrintState) (buffer : CStr)
    (h : isBlank buffer = true) :
    loadLine st buffer = { st with lines := st.lines ++ [buffer] } ∧
    expandLine ps buffer = ("\n".toList, ps) := by
  have ht := trim_of_blank buffer h
  have hl : loaderLine buffer = [] := trim_of_blank _ (isBlank_take buffer _ h)
  refine ⟨?_, ?_⟩
  · unfold loadLine
    simp only [hl]
    simp [is_brace_line]
  · unfold expandLine
    simp only [ht]
    simp

/-- C18 (as amended) on the buffer ` \t\n`. -/
theorem blank_line_is_buffered_witness :
    isBlank " \t\n".toList = true ∧
    loadLine initLoad " \t\n".toList = { initLoad with lines := initLoad.lines ++ [" \t\n".toList] } ∧
    expandLine initPrint " \t\n".toList = ("\n".toList, initPrint) :=
  ⟨by decide, blank_line_is_buffered initLoad initPrint " \t\n".toList (by decide)⟩

/-! ### Escape conversion -/

/-- With room for the whole input the loop of `convert_escapes` never leaves
through the buffer test. -/
theorem convertLoop_eq_unescape (max_len : Nat) : ∀ (n : Nat) (input : CStr) (out_i : Nat),
    input.length ≤ n → out_i + input.length < max_len →
    convertLoop max_len input out_i = unescape input := by
  intro n
  induction n using Nat.strong_induction_on with
  | _ n ih =>
    intro input out_i hn hroom
    match input, hn, hroom with
    | [], _, _ => rfl
    | [c], _, hroom =>
      have : out_i + 1 < max_len := by simpa using hroom
      simp [convertLoop, unescape, this]
    | c :: d :: rest, hn, hroom =>
      simp only [List.length_cons] at hn hroom
      have h1 : out_i + 1 < max_len := by omega
      simp only [convertLoop, unescape, h1, if_true]
      split_ifs with he
      · rw [ih (n - 2) (by omega) rest (out_i + 1) (by omega) (by omega)]
      · rw [ih (n - 1) (by omega) (d :: rest) (out_i + 1) (by simp; omega) (by simp; omega)]

theorem unescape_length : ∀ (n : Nat) (input : CStr), input.length ≤ n →
    (unescape input).length + escapeCount input = input.length := by
  intro n
  induction n using Nat.strong_induction_on with
  | _ n ih =>
    intro input hn
    match input, hn with
    | [], _ => rfl
    | [c], _ => rfl
    | c :: d :: rest, hn =>
      simp only [List.length_cons] at hn
      simp only [unescape, escapeCount]
      split_ifs with he
      · have := ih (n - 2) (by omega) rest (by omega)
        simp only [List.length_cons]
        omega
      · have := ih (n - 1) (by omega) (d :: rest) (by simp; omega)
        simp only [List.length_cons] at this ⊢
        omega

theorem printMessage_length (line msg : CStr) (h : printMessage line = some msg) :
    msg.length < line.length := by
  unfold printMessage at h
  split at h
  · rename_i s e hs he
    split_ifs at h with hlt
    have hm : msg = (line.take e).drop (s + 1) := by simpa using h.symm
    have hs2 : s < line.length := by
      clear h hm he hlt
      induction line generalizing s with
      | nil => simp [strchr] at hs
      | cons x xs ih =>
        simp only [strchr] at hs
        split_ifs at hs
        · simp only [List.length_cons]
          have : 0 = s := by simpa using hs
          omega
        · cases h2 : strchr xs '"' with
          | none => simp [h2] at hs
          | some s1 =>
            simp [h2] at hs
            have := ih s1 h2
            simp only [List.length_cons]
            omega
    rw [hm, List.length_drop, List.length_take]
    omega
  · simp at h

/-- C19: for every message shorter than `MAX_LINE = 1024` characters,
`convert_escapes` with the buffer of `2 * MAX_LINE` bytes returns the whole
input with each backslash immediately followed by `n` (read left to right, no
overlap) replaced by one byte 10 and every other character copied: the buffer
test never cuts the input, and the output is shorter than the input by the
number of replaced pairs.  Every message taken from a buffer read by `fgets` is
that short. -/
theorem convert_escapes_total (msg : CStr) (h : msg.length < MAX_LINE) :
    convert_escapes msg (MAX_LINE * 2) = unescape msg ∧
    (convert_escapes msg (MAX_LINE * 2)).length + escapeCount msg = msg.length ∧
    (convert_escapes msg (MAX_LINE * 2)).length < MAX_LINE * 2 ∧
    (∀ raw m : CStr, raw.length < MAX_LINE → printMessage (trim raw) = some m →
      m.length < MAX_LINE) := by
  have he : convert_escapes msg (MAX_LINE * 2) = unescape msg := by
    unfold convert_escapes
    exact convertLoop_eq_unescape _ msg.length msg 0 (le_refl _) (by unfold MAX_LINE at *; omega)
  have hl := unescape_length msg.length msg (le_refl _)
  refine ⟨he, ?_, ?_, ?_⟩
  · rw [he]; exact hl
  · rw [he]; unfold MAX_LINE at *; omega
  · intro raw m hr hm
    have h1 := printMessage_length _ _ hm
    have h2 := (trim_sublist raw).length_le
    omega

/-- C19 on the message `a\nb\\n\` (two pairs are replaced); with a buffer of
two bytes the same function does cut its input. -/
theorem convert_escapes_total_witness :
    "a\\nb\\\\n\\".toList.length < MAX_LINE ∧
    unescape "a\\nb\\\\n\\".toList = "a\nb\\\n\\".toList ∧
    escapeCount "a\\nb\\\\n\\".toList = 2 ∧
    convert_escapes "abc".toList 2 = "a".toList ∧
    convert_escapes "a\\nb\\\\n\\".toList (MAX_LINE * 2) = unescape "a\\nb\\\\n\\".toList :=
  ⟨by decide, by decide, by decide, by decide,
    (convert_escapes_total "a\\nb\\\\n\\".toList (by decide)).1⟩

theorem unescape_of_no_escape : ∀ (n : Nat) (t : CStr), t.length ≤ n → escapeCount t = 0 →
    unescape t = t := by
  intro n
  induction n using Nat.strong_induction_on with
  | _ n ih =>
    intro t hn h0
    match t, hn, h0 with
    | [], _, _ => rfl
    | [c], _, _ => rfl
    | c :: d :: rest, hn, h0 =>
      simp only [List.length_cons] at hn
      simp only [escapeCount] at h0
      simp only [unescape]
      split_ifs at h0 ⊢ with he
      · rw [ih (n - 1) (by omega) (d :: rest) (by simp; omega) h0]

theorem emitSegments_single (t : CStr) (hne : t ≠ []) (hn : '\n' ∉ t) :
    emitSegments t.length true t = "\"".toList ++ t ++ "\"".toList := by
  obtain ⟨c, cs, rfl⟩ := List.exists_cons_of_ne_nil hne
  have ht : (c :: cs).takeWhile (fun c => decide (c ≠ '\n')) = c :: cs := by
    rw [List.takeWhile_eq_self_iff]
    intro x hx
    have : x ≠ '\n' := fun he => hn (he ▸ hx)
    simpa using this
  have hd : (c :: cs).dropWhile (fun c => decide (c ≠ '\n')) = [] := by
    rw [List.dropWhile_eq_nil_iff]
    intro x hx
    have : x ≠ '\n' := fun he => hn (he ▸ hx)
    simpa using this
  simp only [List.length_cons, emitSegments, ht, hd]
  simp

/-- The data declaration of a non-empty message without escape. -/
theorem messageDecl_single (id : Nat) (t : CStr) (hne : t ≠ []) (hlen : t.length < MAX_LINE)
    (he : escapeCount t = 0) (hn : '\n' ∉ t) :
    messageDecl id (convert_escapes t (MAX_LINE * 2)) =
      "message_".toList ++ fmt_d id ++ " db \"".toList ++ t ++ "\",0\n\n".toList := by
  have hc : convert_escapes t (MAX_LINE * 2) = t := by
    unfold convert_escapes
    rw [convertLoop_eq_unescape _ t.length t 0 (le_refl _) (by unfold MAX_LINE at *; omega)]
    exact unescape_of_no_escape t.length t (le_refl _) he
  have h1 : " db \"".toList = " db ".toList ++ "\"".toList := by decide
  have h2 : "\",0\n\n".toList = "\"".toList ++ ",0\n\n".toList := by decide
  rw [hc, messageDecl, emitSegments_single t hne hn, h1, h2]
  simp only [List.append_assoc]

/-- C17 (defect): for `PRINT ""` the message is empty, the segment loop
`while (*pos)` does not run at all and the data declaration written is
`message_0 db ,0`, with no quoted literal, instead of `message_0 db "",0`.
For a non-empty message without escape the declaration is
`message_<id> db "t",0`, one quoted literal, as the claim says. -/
theorem print_empty_message_no_literal :
    isPrintDirective "PRINT \"\"\n".toList = true ∧
    printMessage (trim "PRINT \"\"\n".toList) = some [] ∧
    messageDecl 0 (convert_escapes [] (MAX_LINE * 2)) = "message_0 db ,0\n\n".toList ∧
    (expandLine initPrint "PRINT \"\"\n".toList).1 =
      printLabel 0 ++ printRoutine 0 ++ "message_0 db ,0\n\n".toList ∧
    (∀ (id : Nat) (t : CStr), t ≠ [] → t.length < MAX_LINE → escapeCount t = 0 → '\n' ∉ t →
      messageDecl id (convert_escapes t (MAX_LINE * 2)) =
        "message_".toList ++ fmt_d id ++ " db \"".toList ++ t ++ "\",0\n\n".toList) := by
  refine ⟨by decide, by decide, by decide, by decide, ?_⟩
  intro id t hne hlen he hn
  exact messageDecl_single id t hne hlen he hn

end AsmPlus
